import Mathlib

/-!
Verification development for the mozy Model/Factory/Registry library.

The JavaScript source is shallowly embedded:
* `JVal` models a JavaScript value as it occurs in a model's flat data bag.
  Primitive values are compared structurally, exactly as the strict
  (in)equality operators compare them; object and array values are
  represented by `JVal.ref` carrying an abstract address, so that `=` on
  `JVal` coincides with JavaScript `===` (reference identity) on them.
* A data bag (`Bag`) is an insertion-ordered association list with the
  semantics of a plain JavaScript object: updating an existing key keeps
  its position, adding a new key appends it, `delete` removes it.
* `Model` embeds the Model class of `src/model.js`: the `_data` bag and
  the `_previousData` store (whose entries may hold `undefined`, hence
  `Option JVal` values).  Methods that mutate state are state-passing
  functions; the change events a call emits are returned as a list.
* The registry of `src/index.js`/`registry.js` is embedded by `Registry`.
  Fields that the dispose path sets to `undefined` are `Option`-valued.
  Errors thrown by the JavaScript code are `Except` results carrying a
  `RegErr`; every operation returns its post-state, so atomicity claims
  are real theorems rather than artifacts of the embedding.
* `Model.copy`'s textual uuid rewrite is embedded at the level of the
  serialized JSON character list, exactly as the source manipulates the
  `JSON.stringify` output: `Json` is the tree of JSON-serializable data,
  `stringify` its serialization, and the regex scans are implemented as
  character-list scanners with the same matching semantics.
-/

namespace Mozy

/-- JavaScript value stored in a model data bag.  `ref n` stands for an
object or array value; `n` is its abstract heap address, so equality of
`JVal` is JavaScript `===`. -/
inductive JVal where
  | str (s : String)
  | num (n : Int)
  | bool (b : Bool)
  | null
  | ref (addr : Nat)
deriving DecidableEq

/-- Flat data bag backing a model: a plain-object keyed map in insertion
order.  JSON-parsed bags never hold `undefined` values, and `Model.set`
deletes a key instead of storing `undefined`, so values are plain `JVal`. -/
def Bag : Type := List (String × JVal)

/-- Data bag that may hold `undefined`-valued own properties, as produced
transiently by `Object.assign(data, { uuid, identity })` inside
`resetData` when the model lacks one of the two keys. -/
def OBag : Type := List (String × Option JVal)

/-- Property read `data[p]`: `none` is JavaScript `undefined`. -/
def bagGet (d : Bag) (p : String) : Option JVal :=
  (d.find? (fun q => q.1 = p)).map (fun q => q.2)

/-- Property write `data[p] = v`: update in place or append. -/
def bagSet (d : Bag) (p : String) (v : JVal) : Bag :=
  match d with
  | [] => [(p, v)]
  | q :: rest => if q.1 = p then (p, v) :: rest else q :: bagSet rest p v

/-- Property removal `delete data[p]`. -/
def bagDelete (d : Bag) (p : String) : Bag :=
  match d with
  | [] => []
  | q :: rest => if q.1 = p then rest else q :: bagDelete rest p

/-- Keys of a bag, in order. -/
def bagKeys (d : Bag) : List String := d.map (fun q => q.1)

/-- Read on an `OBag`: absent key and `undefined`-valued key both read as
`undefined`, like a JavaScript property access. -/
def obagGet (d : OBag) (p : String) : Option JVal :=
  match (d.find? (fun q => q.1 = p)).map (fun q => q.2) with
  | some v => v
  | none => none

/-- Whether `p` is an own property of the `OBag` (`hasOwnProperty`). -/
def obagHas (d : OBag) (p : String) : Bool :=
  (d.find? (fun q => q.1 = p)).isSome

/-- Write on an `OBag`. -/
def obagSet (d : OBag) (p : String) (v : Option JVal) : OBag :=
  match d with
  | [] => [(p, v)]
  | q :: rest => if q.1 = p then (p, v) :: rest else q :: obagSet rest p v

/-- Drop `undefined`-valued entries and unwrap the rest.  On the reachable
states of `resetData` every entry is defined, so this is the identity
embedding back into `Bag`. -/
def obagCollapse (d : OBag) : Bag :=
  d.filterMap (fun q => (q.2).map (fun v => (q.1, v)))

/-- The string literal used for the `uuid` reserved property. -/
def uuidKey : String := "uuid"

/-- The string literal used for the `identity` reserved property. -/
def identityKey : String := "identity"

/-- `Model.identity`, the polymorphic identity tag of the base class. -/
def modelIdentityTag : String := "mozy.Model"

/-- Change events dispatched by `dispatchChange`: the per-property topic
`change <property>` with its (newValue, oldValue) payload, and the generic
`change` topic. -/
inductive Event where
  | changeProp (p : String) (newVal oldVal : Option JVal)
  | change
deriving DecidableEq

/-- Model state: the live data bag and the previous-values store.  An
entry of `_previousData` can record the value `undefined`, hence the
`Option JVal` values. -/
structure Model where
  _data : Bag
  _previousData : List (String × Option JVal)

/-- Read of `this._previousData[property]`. -/
def prevGet (pd : List (String × Option JVal)) (p : String) : Option JVal :=
  match (pd.find? (fun q => q.1 = p)).map (fun q => q.2) with
  | some v => v
  | none => none

/-- Write of `this._previousData[property] = v`. -/
def prevSet (pd : List (String × Option JVal)) (p : String) (v : Option JVal) :
    List (String × Option JVal) :=
  match pd with
  | [] => [(p, v)]
  | q :: rest => if q.1 = p then (p, v) :: rest else q :: prevSet rest p v

/-- `model.get(property)` without a default argument: the stored value or
`undefined`. -/
def Model.get (m : Model) (p : String) : Option JVal :=
  bagGet m._data p

/-- The `uuid` getter: `this.get('uuid')`. -/
def Model.uuid (m : Model) : Option JVal :=
  m.get uuidKey

/-- `getModelIdentity()`: `this.get('identity')`. -/
def Model.getModelIdentity (m : Model) : Option JVal :=
  m.get identityKey

/-- `getDataReference()`: the underlying data bag. -/
def Model.getDataReference (m : Model) : Bag :=
  m._data

/-- `getPrevious(property)`. -/
def Model.getPrevious (m : Model) (p : String) : Option JVal :=
  prevGet m._previousData p

/-- `has(property)`: own-key test on the data bag. -/
def Model.has (m : Model) (p : String) : Bool :=
  (bagGet m._data p).isSome

/-- `hasChanged(...properties)`: true when any listed property's current
value strictly differs from the recorded previous value (`!==`; missing
entries read as `undefined` on both sides). -/
def Model.hasChanged (m : Model) (props : List String) : Bool :=
  props.any (fun p => prevGet m._previousData p != bagGet m._data p)

/-- JavaScript falsiness of a value that may be `undefined`, as tested by
`!value` in `set`'s `unsetIfFalsy` branch. -/
def isFalsy (v : Option JVal) : Bool :=
  match v with
  | none => true
  | some JVal.null => true
  | some (JVal.bool b) => !b
  | some (JVal.num n) => n = 0
  | some (JVal.str s) => s = ""
  | some (JVal.ref _) => false

/-- `dispatchChange(property, newValue, oldValue)`: emits the per-property
event only when `property` is truthy (the guard `if (property)` skips the
`undefined` and empty-string cases), then always emits generic `change`. -/
def dispatchChange (p : Option String) (newVal oldVal : Option JVal) : List Event :=
  (match p with
   | some s => if s = "" then [] else [Event.changeProp s newVal oldVal]
   | none => []) ++ [Event.change]

/-- `set(property, value, { setSilent, unsetIfFalsy })`.  Records the
previous value, optionally converts a falsy value into an unset, and when
the (possibly converted) value strictly differs from the current one,
deletes or stores it and, unless silenced, dispatches the change events.
Returns the post-state and the emitted events. -/
def Model.set (m : Model) (p : String) (v : Option JVal)
    (setSilent unsetIfFalsy : Bool) : Model × List Event :=
  let prev := bagGet m._data p
  let pd := prevSet m._previousData p prev
  let v := if unsetIfFalsy && isFalsy v then none else v
  if v ≠ prev then
    let d :=
      match v with
      | none => bagDelete m._data p
      | some w => bagSet m._data p w
    let evs := if setSilent then [] else dispatchChange (some p) v prev
    ({ _data := d, _previousData := pd }, evs)
  else
    ({ m with _previousData := pd }, [])

/-- `unset(property, flags)`: `set(property, undefined, flags)`. -/
def Model.unset (m : Model) (p : String) (setSilent unsetIfFalsy : Bool) :
    Model × List Event :=
  m.set p none setSilent unsetIfFalsy

/-- `assignData(newData, { setSilent })`: records the previous value of
every key of `newData`, assigns all of them onto the data bag, and emits a
single generic `change` event when at least one value strictly changed and
the call is not silenced. -/
def Model.assignData (m : Model) (newData : Bag) (setSilent : Bool) :
    Model × List Event :=
  let pd := newData.foldl (fun acc q => prevSet acc q.1 (bagGet m._data q.1))
    m._previousData
  let didChange := newData.any (fun q => some q.2 != bagGet m._data q.1)
  let d := newData.foldl (fun acc q => bagSet acc q.1 q.2) m._data
  ({ _data := d, _previousData := pd },
   if !setSilent && didChange then dispatchChange none none none else [])

/-- `_getDefaults()` of the base class: the identity tag and a freshly
generated uuid.  The `uuidV4()` call is embedded by the `freshUuid`
argument supplied by the caller. -/
def getDefaults (freshUuid : String) : List (String × JVal) :=
  [(identityKey, JVal.str modelIdentityTag), (uuidKey, JVal.str freshUuid)]

/-- `_withDefaultData(data)` on a JSON-parsed bag (no `undefined` values):
for every default key whose current value is `undefined`, assigns the
default.  Iteration follows the insertion order of the defaults object. -/
def withDefaultData (d : Bag) (freshUuid : String) : Bag :=
  (getDefaults freshUuid).foldl
    (fun acc q => if (bagGet acc q.1).isSome then acc else bagSet acc q.1 q.2) d

/-- `_withDefaultData(data)` applied to the transient `OBag` built by
`resetData`, where a key can be present with value `undefined`; the
`typeof data[key] === 'undefined'` test then still selects the default. -/
def withDefaultDataO (d : OBag) (freshUuid : String) : OBag :=
  (getDefaults freshUuid).foldl
    (fun acc q => if (obagGet acc q.1).isSome then acc else obagSet acc q.1 (some q.2)) d

/-- Model constructor on a parsed data bag: `_parseData` is the identity
in the base class, the merged defaults become `_data`, and
`_previousData` starts empty. -/
def Model.make (data : Bag) (freshUuid : String) : Model :=
  { _data := withDefaultData data freshUuid, _previousData := [] }

/-- `Object.assign(target, source)` where `source` is a JSON bag: each
source entry is written onto the `OBag` target in key order. -/
def assignOverO (d : OBag) (src : Bag) : OBag :=
  src.foldl (fun acc q => obagSet acc q.1 (some q.2)) d

/-- `resetData(defaultData, flags)`: preserves the current `uuid` and
`identity` into a fresh bag, re-applies class defaults to it, assigns
`defaultData` over the result, clears the live data bag, and assigns the
combined bag back through `assignData`. -/
def Model.resetData (m : Model) (defaultData : Bag) (freshUuid : String)
    (setSilent : Bool) : Model × List Event :=
  let data1 : OBag := [(uuidKey, bagGet m._data uuidKey),
                       (identityKey, bagGet m._data identityKey)]
  let data2 := withDefaultDataO data1 freshUuid
  let data3 := assignOverO data2 defaultData
  let cleared : Model := { m with _data := [] }
  cleared.assignData (obagCollapse data3) setSilent

/-- Error classes thrown by the registry code.  `invalidKey` embeds
`InvalidRegistryKeyError` (the only class `dataHasValidKey` and
`getModel` catch), `typeErr` a `TypeError`, `err` a plain `Error`, and
`external` an arbitrary error thrown by a factory or constructor. -/
inductive RegErr where
  | invalidKey (key : Option JVal)
  | typeErr (msg : String)
  | err (msg : String)
  | external (code : Nat)
deriving DecidableEq

/-- Message of the `TypeError` thrown by `getValidKeyIn` on a missing
data argument. -/
def msgDataRequired : String := "Argument data required."

/-- Message of the `TypeError` thrown by the `factory` getter after the
factory reference has been dropped. -/
def msgFactoryUninit : String := "Registry factory not initialized."

/-- Message of the `TypeError` raised when a method dereferences the
`_map`, `_options` or `_keyGetter` field after `_deleteReferences` has
set it to `undefined`. -/
def msgUndefinedField : String := "Cannot read properties of undefined."

/-- Message of the duplicate-registration `Error`. -/
def msgAlreadyRegistered : String := "Registry key already registered."

/-- Registry backing map: a `Map<key, Model>` in insertion order.  Keys
are the extracted key values; an extracted key can be `undefined` when a
custom validator accepts it, and a JavaScript `Map` admits `undefined`
keys, hence `Option JVal`. -/
def RMap : Type := List (Option JVal × Model)

/-- `Map.get`. -/
def rmapGet (m : RMap) (k : Option JVal) : Option Model :=
  (m.find? (fun q => q.1 = k)).map (fun q => q.2)

/-- `Map.set`. -/
def rmapSet (m : RMap) (k : Option JVal) (v : Model) : RMap :=
  match m with
  | [] => [(k, v)]
  | q :: rest => if q.1 = k then (k, v) :: rest else q :: rmapSet rest k v

/-- The `keyAttr` option: an attribute name or a key-derivation
function. -/
inductive KeyAttr where
  | attr (name : String)
  | func (f : Bag → Option JVal)

/-- `_createKeyGetter(attr)`: a function `data => attr.call(this, data)`
or `data => data[attr]`. -/
def createKeyGetter (a : KeyAttr) : Bag → Option JVal :=
  match a with
  | KeyAttr.attr name => fun d => bagGet d name
  | KeyAttr.func f => f

/-- Registry options after the `{ map, ...restOptions }` split:
`keyValidator` is `none` when overridden with a non-function value, in
which case `isValidKey` performs no validation. -/
structure ROptions where
  keyAttr : KeyAttr
  allowOverrides : Bool
  keyValidator : Option (Option JVal → Bool)

/-- The default `keyValidator`: `key => typeof key === 'string'`. -/
def defaultKeyValidator : Option JVal → Bool :=
  fun k =>
    match k with
    | some (JVal.str _) => true
    | _ => false

/-- The `defaultOptions` object of `src/index.js`. -/
def defaultROptions : ROptions :=
  { keyAttr := KeyAttr.attr uuidKey
    allowOverrides := false
    keyValidator := some defaultKeyValidator }

/-- A factory as stored in `_factory`: both a `mozy.Factory` instance and
a plain factory function reduce to a fallible map from a data bag to a
model, which is how `newInstanceFor` consumes them. -/
def FactoryFn : Type := Bag → Except RegErr Model

/-- A constructor override passed to `getModel`: `new Constructor(data)`
as a fallible model builder. -/
def CtorFn : Type := Bag → Except RegErr Model

/-- Registry state.  The `Option`-valued fields model own properties that
`_deleteReferences` sets to `undefined`; `hasOwnMapProp` tracks
`Object.prototype.hasOwnProperty.call(this, '_map')`, which the
constructor makes true and which plain assignment of `undefined` never
makes false again. -/
structure Registry where
  _factory : Option FactoryFn
  _map : Option RMap
  _options : Option ROptions
  _keyGetter : Option (Bag → Option JVal)
  hasOwnMapProp : Bool

/-- The registry constructor with an injected backing map: stores the
factory, the map, the rest-options, and the key getter derived from
`options.keyAttr`.  (The `factory` argument is required and validated by
the constructor, hence it is a plain argument here.) -/
def mkRegistry (f : FactoryFn) (o : ROptions) (m : RMap) : Registry :=
  { _factory := some f
    _map := some m
    _options := some o
    _keyGetter := some (createKeyGetter o.keyAttr)
    hasOwnMapProp := true }

/-- `isValidKey(key)`: applies `options.keyValidator` when it is a
function, otherwise no validation.  Reading `this.options` throws after
disposal. -/
def Registry.isValidKeyE (r : Registry) (k : Option JVal) : Except RegErr Bool :=
  match r._options with
  | none => Except.error (RegErr.typeErr msgUndefinedField)
  | some o =>
    match o.keyValidator with
    | some f => Except.ok (f k)
    | none => Except.ok true

/-- `getValidKeyIn(data)`: requires a defined data argument, extracts the
key through `_keyGetter`, and requires it to pass `isValidKey`, throwing
`InvalidRegistryKeyError` otherwise. -/
def Registry.getValidKeyIn (r : Registry) (data : Option Bag) :
    Except RegErr (Option JVal) :=
  match data with
  | none => Except.error (RegErr.typeErr msgDataRequired)
  | some d =>
    match r._keyGetter with
    | none => Except.error (RegErr.typeErr msgUndefinedField)
    | some g =>
      let k := g d
      match r.isValidKeyE k with
      | Except.error e => Except.error e
      | Except.ok valid =>
        if valid then Except.ok k else Except.error (RegErr.invalidKey k)

/-- `dataHasValidKey(data)`: converts only an `InvalidRegistryKeyError`
from `getValidKeyIn` into `false`; every other error propagates. -/
def Registry.dataHasValidKey (r : Registry) (data : Option Bag) :
    Except RegErr Bool :=
  match r.getValidKeyIn data with
  | Except.ok _ => Except.ok true
  | Except.error (RegErr.invalidKey _) => Except.ok false
  | Except.error e => Except.error e

/-- `validate(key, value)`: key validity, then the duplicate-key check
against `options.allowOverrides`.  The final `value instanceof Model`
check is vacuously true here because the embedding types registry values
as models. -/
def Registry.validateE (r : Registry) (k : Option JVal) : Except RegErr Unit :=
  match r.isValidKeyE k with
  | Except.error e => Except.error e
  | Except.ok valid =>
    if !valid then Except.error (RegErr.invalidKey k)
    else
      match r._map with
      | none => Except.error (RegErr.typeErr msgUndefinedField)
      | some m =>
        match r._options with
        | none => Except.error (RegErr.typeErr msgUndefinedField)
        | some o =>
          if (rmapGet m k).isSome && o.allowOverrides = false then
            Except.error (RegErr.err msgAlreadyRegistered)
          else Except.ok ()

/-- `set(key, value)`: validate, then write through to the backing map.
Returns the post-state with the result, so failures demonstrably leave
the state untouched. -/
def Registry.setE (r : Registry) (k : Option JVal) (v : Model) :
    Registry × Except RegErr Unit :=
  match r.validateE k with
  | Except.error e => (r, Except.error e)
  | Except.ok _ =>
    match r._map with
    | none => (r, Except.error (RegErr.typeErr msgUndefinedField))
    | some m => ({ r with _map := some (rmapSet m k v) }, Except.ok ())

/-- `register(model, key)`: when `key` is `undefined` the key is derived
from the model's own data reference, otherwise the supplied key is used
as is; then `set`. -/
def Registry.register (r : Registry) (model : Model) (key : Option JVal) :
    Registry × Except RegErr Unit :=
  match key with
  | some k => r.setE (some k) model
  | none =>
    match r.getValidKeyIn (some model.getDataReference) with
    | Except.error e => (r, Except.error e)
    | Except.ok rk => r.setE rk model

/-- `newInstanceFor(data)`: the `factory` getter throws when the factory
reference was dropped; otherwise the factory (instance or function)
builds the model.  The trailing `Could not create model` branch of the
source is unreachable because the constructor validates the factory. -/
def Registry.newInstanceForE (r : Registry) (d : Bag) : Except RegErr Model :=
  match r._factory with
  | none => Except.error (RegErr.typeErr msgFactoryUninit)
  | some f => f d

/-- Creation half of `getModel`: build the model from the constructor
override or the factory, then `register(model, cachedKey)`. -/
def Registry.getModelCreate (r : Registry) (d : Bag) (ctor : Option CtorFn)
    (cachedKey : Option JVal) : Registry × Except RegErr Model :=
  let modelE :=
    match ctor with
    | some c => c d
    | none => r.newInstanceForE d
  match modelE with
  | Except.error e => (r, Except.error e)
  | Except.ok model =>
    match r.register model cachedKey with
    | (r1, Except.ok _) => (r1, Except.ok model)
    | (r1, Except.error e) => (r1, Except.error e)

/-- `getModel(data, Constructor)`.  The `try` block extracts a valid key
and returns the cached model on a hit; a caught `InvalidRegistryKeyError`
falls through to creation with `cachedKey` still `undefined`; any other
error (missing data argument, disposed registry) propagates.  On a miss
the already-validated key is reused for registration. -/
def Registry.getModel (r : Registry) (data : Option Bag) (ctor : Option CtorFn) :
    Registry × Except RegErr Model :=
  match data with
  | none => (r, Except.error (RegErr.typeErr msgDataRequired))
  | some d =>
    match r.getValidKeyIn (some d) with
    | Except.ok k =>
      match r._map with
      | none => (r, Except.error (RegErr.typeErr msgUndefinedField))
      | some m =>
        match rmapGet m k with
        | some cached => (r, Except.ok cached)
        | none => r.getModelCreate d ctor k
    | Except.error (RegErr.invalidKey _) => r.getModelCreate d ctor none
    | Except.error e => (r, Except.error e)

/-- `clear()`: `this._map.clear()`, a `TypeError` when `_map` is
`undefined`. -/
def Registry.clearE (r : Registry) : Registry × Except RegErr Unit :=
  match r._map with
  | none => (r, Except.error (RegErr.typeErr msgUndefinedField))
  | some _ => ({ r with _map := some [] }, Except.ok ())

/-- `_deleteReferences()`: assigns `undefined` to the factory, map,
options and key-getter fields.  Assignment does not remove the own
property, so `hasOwnMapProp` stays as it was. -/
def Registry.deleteReferences (r : Registry) : Registry :=
  { r with _factory := none, _map := none, _options := none, _keyGetter := none }

/-- `dispose()`: returns early when `'_map'` is not an own property,
otherwise clears the map and drops the references. -/
def Registry.dispose (r : Registry) : Registry × Except RegErr Unit :=
  if !r.hasOwnMapProp then (r, Except.ok ())
  else
    match r.clearE with
    | (r1, Except.error e) => (r1, Except.error e)
    | (r1, Except.ok _) => (r1.deleteReferences, Except.ok ())

/-- The double-quote character, written by its code point so that the
embedding of the JSON syntax stays readable. -/
def dq : Char := Char.ofNat 34

/-- Backslash. -/
def bslC : Char := Char.ofNat 92

/-- Newline, the one character the regex dot does not match. -/
def nlC : Char := Char.ofNat 10

/-- Punctuation of the JSON surface syntax. -/
def lbrkC : Char := Char.ofNat 91

/-- Closing square bracket. -/
def rbrkC : Char := Char.ofNat 93

/-- Opening curly bracket. -/
def lbrcC : Char := Char.ofNat 123

/-- Closing curly bracket. -/
def rbrcC : Char := Char.ofNat 125

/-- Comma. -/
def commaC : Char := Char.ofNat 44

/-- Colon. -/
def colonC : Char := Char.ofNat 58

/-- Hyphen, the uuid group separator. -/
def hyphenC : Char := Char.ofNat 45

mutual

/-- Tree of JSON-serializable data, the domain of `JSON.stringify` as
used by `Model.copy`.  Arrays and objects carry their own list types so
that serialization is plain structural recursion. -/
inductive Json where
  | str (s : String)
  | num (n : Int)
  | bool (b : Bool)
  | null
  | arr (xs : JsonList)
  | obj (fields : JsonFields)

/-- Elements of a JSON array. -/
inductive JsonList where
  | nil
  | cons (hd : Json) (tl : JsonList)

/-- Fields of a JSON object, in insertion order. -/
inductive JsonFields where
  | nil
  | cons (key : String) (val : Json) (tl : JsonFields)

end

/-- Escape of one character inside a JSON string literal; the data used
throughout contains no control characters beyond newline, which is the
set `JSON.stringify` escapes on it. -/
def escapeChar (c : Char) : List Char :=
  if c = dq then [bslC, dq]
  else if c = bslC then [bslC, bslC]
  else if c = nlC then [bslC, Char.ofNat 110]
  else [c]

/-- JSON string literal serialization: quote, escaped body, quote. -/
def strLit (s : String) : List Char :=
  dq :: (s.toList.foldr (fun c acc => escapeChar c ++ acc) [dq])

/-- Comma-join of serialized items. -/
def joinComma : List (List Char) → List Char
  | [] => []
  | [x] => x
  | x :: y :: rest => x ++ commaC :: joinComma (y :: rest)

mutual

/-- `JSON.stringify` on a JSON tree: no spaces, fields and elements in
insertion order. -/
def stringify : Json → List Char
  | Json.str s => strLit s
  | Json.num n => (toString n).toList
  | Json.bool b => if b then "true".toList else "false".toList
  | Json.null => "null".toList
  | Json.arr xs => lbrkC :: (stringifyElems xs ++ [rbrkC])
  | Json.obj fs => lbrcC :: (stringifyFields fs ++ [rbrcC])

/-- Comma-separated serialization of array elements. -/
def stringifyElems : JsonList → List Char
  | JsonList.nil => []
  | JsonList.cons x JsonList.nil => stringify x
  | JsonList.cons x (JsonList.cons y tl) =>
    stringify x ++ commaC :: stringifyElems (JsonList.cons y tl)

/-- Comma-separated serialization of object fields (`"key":value`). -/
def stringifyFields : JsonFields → List Char
  | JsonFields.nil => []
  | JsonFields.cons k v JsonFields.nil => strLit k ++ colonC :: stringify v
  | JsonFields.cons k v (JsonFields.cons k2 v2 tl) =>
    (strLit k ++ colonC :: stringify v) ++
      commaC :: stringifyFields (JsonFields.cons k2 v2 tl)

end

/-- The literal prefix matched by `UUID_ATTR_REGEXP`, the eight
characters `"uuid":"`. -/
def attrPat : List Char :=
  dq :: ("uuid".toList ++ [dq, colonC, dq])

/-- Completion of the non-greedy `.*?"` tail of `UUID_ATTR_REGEXP`:
consumes up to and including the first quote, failing when a newline (not
matched by the dot) or the end of input intervenes.  Returns the consumed
part and the remainder. -/
def ttq : List Char → Option (List Char × List Char)
  | [] => none
  | c :: r =>
    if c = dq then some ([dq], r)
    else if c = nlC then none
    else
      match ttq r with
      | some pr => some (c :: pr.1, pr.2)
      | none => none

/-- Global scan of `/"uuid":".*?"/g`: at each position, on a literal
`"uuid":"` prefix with a completable value part, emit the match and
resume after it; otherwise slide one character, as the regex engine
advances its position.  Fuel-indexed; each step consumes input. -/
def attrMatchesAux : Nat → List Char → List (List Char)
  | 0, _ => []
  | _ + 1, [] => []
  | fl + 1, c :: rest =>
    if attrPat.isPrefixOf (c :: rest) then
      match ttq (List.drop 8 (c :: rest)) with
      | some pr => (attrPat ++ pr.1) :: attrMatchesAux fl pr.2
      | none => attrMatchesAux fl rest
    else attrMatchesAux fl rest

/-- `jsonStr.match(UUID_ATTR_REGEXP) || []`. -/
def attrMatches (s : List Char) : List (List Char) :=
  attrMatchesAux s.length s

/-- Hexadecimal digit, case-insensitive (`[0-9A-F]` under the `i`
flag). -/
def isHexDig (c : Char) : Bool :=
  (Char.ofNat 48 ≤ c && c ≤ Char.ofNat 57) ||
  (Char.ofNat 97 ≤ c && c ≤ Char.ofNat 102) ||
  (Char.ofNat 65 ≤ c && c ≤ Char.ofNat 70)

/-- Variant digit `[89AB]` under the `i` flag. -/
def isVariantDig (c : Char) : Bool :=
  c = Char.ofNat 56 || c = Char.ofNat 57 ||
  c = Char.ofNat 65 || c = Char.ofNat 66 ||
  c = Char.ofNat 97 || c = Char.ofNat 98

/-- Character admissible at position `i` of a uuid-v4 textual form, per
`UUID_V4_REGEXP`: hyphens at 8, 13, 18, 23, the version digit `4` at 14,
a variant digit at 19, hexadecimal digits elsewhere. -/
def uuidPosOk (i : Nat) (c : Char) : Bool :=
  if i = 8 || i = 13 || i = 18 || i = 23 then c = hyphenC
  else if i = 14 then c = Char.ofNat 52
  else if i = 19 then isVariantDig c
  else isHexDig c

/-- Whether a character list is a complete uuid-v4 textual match (the
regex is of fixed length 36). -/
def isUuidV4Chars (u : List Char) : Bool :=
  u.length = 36 && u.enum.all (fun p => uuidPosOk p.1 p.2)

/-- `matchStr.match(UUID_V4_REGEXP)`: the leftmost window matching the
fixed-length uuid pattern, scanning position by position. -/
def firstUuidAux : List Char → Option (List Char)
  | [] => none
  | c :: t =>
    if isUuidV4Chars (List.take 36 (c :: t)) then some (List.take 36 (c :: t))
    else firstUuidAux t

/-- Uuids extracted from the attribute matches; a match whose value part
is not uuid-shaped contributes nothing (the `if (match)` guard). -/
def extractedUuids (s : List Char) : List (List Char) :=
  (attrMatches s).filterMap firstUuidAux

/-- Lookup in an old-to-new uuid association. -/
def assocFind (l : List (List Char × List Char)) (k : List Char) :
    Option (List Char) :=
  (l.find? (fun q => q.1 = k)).map (fun q => q.2)

/-- Update-or-append on an old-to-new uuid association. -/
def assocSet (l : List (List Char × List Char)) (k v : List Char) :
    List (List Char × List Char) :=
  match l with
  | [] => [(k, v)]
  | q :: rest => if q.1 = k then (k, v) :: rest else q :: assocSet rest k v

/-- The `reduce` building the uuid map: a uuid gets a fresh replacement
(the next `uuidV4()` from the generator `gen`) when its entry is still
falsy; insertion order is the order of first occurrence. -/
def buildMapAux (gen : Nat → List Char) :
    List (List Char) → List (List Char × List Char) → Nat →
    List (List Char × List Char)
  | [], acc, _ => acc
  | u :: us, acc, n =>
    let truthyHit :=
      match assocFind acc u with
      | some s => !(s.isEmpty)
      | none => false
    if truthyHit then buildMapAux gen us acc n
    else buildMapAux gen us (assocSet acc u (gen n)) (n + 1)

/-- The uuid map of a serialized data bag. -/
def uuidMapOfChars (gen : Nat → List Char) (s : List Char) :
    List (List Char × List Char) :=
  buildMapAux gen (extractedUuids s) [] 0

/-- One step of `acc.split(oldUuid).join(newUuid)`: leftmost,
non-overlapping replacement of every occurrence of `pat` (always a
36-character uuid, hence nonempty) by `rep`.  Fuel-indexed; each step
consumes input. -/
def replAux (pat rep : List Char) : Nat → List Char → List Char
  | 0, s => s
  | _ + 1, [] => []
  | fl + 1, c :: t =>
    if pat.isPrefixOf (c :: t) then
      rep ++ replAux pat rep fl (List.drop (pat.length - 1) t)
    else c :: replAux pat rep fl t

/-- `s.split(pat).join(rep)` for nonempty `pat`. -/
def replaceAll (pat rep s : List Char) : List Char :=
  replAux pat rep s.length s

/-- The final `reduce` of `copy`: sequential global replacement for each
map entry, in map insertion order. -/
def rewriteAll (um : List (List Char × List Char)) (s : List Char) : List Char :=
  um.foldl (fun acc q => replaceAll q.1 q.2 acc) s

/-- Serialized data of the model produced by `copy()`: the stringified
data with every mapped uuid rewritten.  The new model is constructed from
`JSON.parse` of exactly this string. -/
def copyChars (gen : Nat → List Char) (s : List Char) : List Char :=
  rewriteAll (uuidMapOfChars gen s) s

/-- `Model.copy` at the data level: the serialized form of the copy's
data bag, for a model whose data tree is `d`. -/
def modelCopyData (d : Json) (gen : Nat → List Char) : List Char :=
  copyChars gen (stringify d)

/-- Number of (possibly overlapping) occurrences of `pat` in `s`; zero
exactly when `pat` does not occur as a substring. -/
def countOcc (pat : List Char) : List Char → Nat
  | [] => 0
  | c :: t => (if pat.isPrefixOf (c :: t) then 1 else 0) + countOcc pat t

/-- Substring occurrence. -/
def Occurs (pat s : List Char) : Prop :=
  ∃ a b, s = a ++ pat ++ b

/-- Segments of a string between double quotes. -/
def splitQuotes : List Char → List (List Char)
  | [] => [[]]
  | c :: t =>
    if c = dq then [] :: splitQuotes t
    else
      match splitQuotes t with
      | [] => [[c]]
      | seg :: segs => (c :: seg) :: segs

/-- Inverse of `splitQuotes`: rejoin segments with double quotes. -/
def joinQuotes : List (List Char) → List Char
  | [] => []
  | [x] => x
  | x :: y :: rest => x ++ dq :: joinQuotes (y :: rest)

/-- Image of one quote-delimited segment under the uuid map: a segment
that is exactly a mapped uuid becomes its fresh replacement, anything
else passes through. -/
def substTok (um : List (List Char × List Char)) (seg : List Char) : List Char :=
  match assocFind um seg with
  | some f => f
  | none => seg

/-- Keys of the uuid map. -/
def umKeys (um : List (List Char × List Char)) : List (List Char) :=
  um.map (fun q => q.1)

/-- Property name used as a generic non-reserved key in examples. -/
def widthKey : String := "width"

/-- The empty property name. -/
def emptyName : String := ""

/-- Uuid generated for the example models. -/
def fresh0 : String := "f0f0f0f0-0000-4000-8000-000000000000"

/-- Second generated uuid for examples. -/
def fresh1 : String := "f1f1f1f1-1111-4111-8111-111111111111"

/-- An unrelated uuid-like value used to overwrite reserved keys. -/
def otherU : String := "99999999-9999-4999-8999-999999999999"

/-- Example factory: builds a base model from the data bag. -/
def exFactory : FactoryFn := fun d => Except.ok (Model.make d fresh1)

/-- Example failing factory: its construction always throws. -/
def badFactory : FactoryFn := fun _ => Except.error (RegErr.external 7)

/-- Example data bag with a valid uuid key. -/
def exBagA : Bag := [(uuidKey, JVal.str fresh0), (widthKey, JVal.num 3)]

/-- Second example data bag resolving to the same uuid key. -/
def exBagB : Bag := [(uuidKey, JVal.str fresh0), (widthKey, JVal.num 9)]

/-- Example data bag without a uuid, so key extraction yields
`undefined`, which the default validator rejects. -/
def exBagBad : Bag := [(widthKey, JVal.num 3)]

/-- Example registry with the default options and an empty map. -/
def exRegistry : Registry := mkRegistry exFactory defaultROptions []

/-- Property name of an opaque foreign-reference field. -/
def refKey : String := "ref"

/-- Property name of the first nested entity bag. -/
def subKey : String := "sub"

/-- Property name of the second nested entity bag. -/
def sub2Key : String := "sub2"

/-- Uuid of the example parent entity. -/
def uuidA : String := "aaaa0001-0001-4001-8001-000000000001"

/-- Uuid shared between the example nested entity and a sibling
reference. -/
def uuidB : String := "bbbb0002-0002-4002-8002-000000000002"

/-- First fresh uuid produced by the example generator. -/
def genA : String := "cccc0003-0003-4003-8003-000000000003"

/-- Second fresh uuid produced by the example generator. -/
def genB : String := "dddd0004-0004-4004-8004-000000000004"

/-- Example `uuidV4()` supply for copy examples. -/
def exGen : Nat → List Char :=
  fun n => if n = 0 then genA.toList else genB.toList

/-- Copy example with a shared nested uuid: the nested entity under
`sub` has uuid `uuidB`, and the sibling under `sub2` references the same
`uuidB` through an opaque field. -/
def dShared : Json :=
  Json.obj (JsonFields.cons uuidKey (Json.str uuidA)
    (JsonFields.cons subKey
      (Json.obj (JsonFields.cons uuidKey (Json.str uuidB) JsonFields.nil))
      (JsonFields.cons sub2Key
        (Json.obj (JsonFields.cons refKey (Json.str uuidB) JsonFields.nil))
        JsonFields.nil)))

/-- Copy example for the foreign-reference claim: `uuidB` is uuid-shaped
but appears only under the `ref` key, never under a `uuid` key. -/
def dForeign : Json :=
  Json.obj (JsonFields.cons uuidKey (Json.str uuidA)
    (JsonFields.cons refKey (Json.str uuidB) JsonFields.nil))

theorem bagGet_bagSet (d : Bag) (k k2 : String) (v : JVal) :
    bagGet (bagSet d k v) k2 = if k2 = k then some v else bagGet d k2 := by
  induction d with
  | nil =>
    simp only [bagSet, bagGet, List.find?]
    by_cases h : k = k2
    · subst h; simp
    · simp [h, Ne.symm h]
  | cons q rest ih =>
    simp only [bagSet]
    by_cases hq : q.1 = k
    · subst hq
      by_cases h2 : k2 = q.1
      · subst h2; simp [bagGet, List.find?]
      · simp only [if_pos rfl]
        simp [bagGet, List.find?, h2, Ne.symm h2]
    · simp only [if_neg hq]
      by_cases h2 : k2 = q.1
      · subst h2
        simp [bagGet, List.find?, hq]
      · simp only [bagGet, List.find?] at ih ⊢
        have : (q.1 = k2) = False := by
          simp [Ne.symm h2]
        simp [this, ih]

theorem bagGet_nil (k : String) : bagGet [] k = none := rfl

theorem prevGet_nil (k : String) : prevGet [] k = none := rfl

/-- C10 helper: a freshly constructed model has an empty previous-values
store. -/
theorem make_previousData (d : Bag) (f : String) :
    (Model.make d f)._previousData = [] := rfl

/-- C10.  Implicit claim: on a freshly constructed model, `hasChanged(p)`
is true for every property whose current value is defined, because the
previous-values store is empty and the comparison is against
`undefined`. -/
theorem claim_C10_hasChanged_fresh (d : Bag) (f : String) (p : String)
    (h : (bagGet (Model.make d f)._data p).isSome = true) :
    (Model.make d f).hasChanged [p] = true := by
  obtain ⟨v, hv⟩ := Option.isSome_iff_exists.mp h
  simp only [Model.hasChanged, List.any_cons, List.any_nil, Bool.or_false,
    make_previousData, prevGet_nil, hv]
  rfl

/-- Witness for C10 at a concrete input: `identity` is defined right
after construction, and `hasChanged('identity')` is true before any
mutation. -/
theorem claim_C10_witness :
    (Model.make [] fresh0).hasChanged [identityKey] = true :=
  claim_C10_hasChanged_fresh [] fresh0 identityKey (by decide)

/-- C6 counterexample: the claim quantifies over every property, but for
the empty property name the `if (property)` guard of `dispatchChange`
is falsy, so a value-changing `set` emits only the generic `change`
event and no per-property event. -/
theorem claim_C6_counterexample :
    ((Model.make [] fresh0).set emptyName (some (JVal.num 1)) false false).2
      = [Event.change] := by decide

/-- C6 as amended: for every property other than the empty string,
setting a strictly different value with default flags emits exactly one
per-property event (with the correct new and old values) and exactly one
generic event; setting the current value emits nothing; a silent set
emits nothing regardless. -/
theorem claim_C6_set_events (m : Model) (p : String) (v : Option JVal)
    (hp : p ≠ "") :
    (v ≠ bagGet m._data p →
      (m.set p v false false).2
        = [Event.changeProp p v (bagGet m._data p), Event.change])
    ∧ (v = bagGet m._data p → (m.set p v false false).2 = [])
    ∧ (m.set p v true false).2 = [] := by
  refine ⟨?_, ?_, ?_⟩
  · intro hne
    simp [Model.set, dispatchChange, hne, hp]
  · intro heq
    simp [Model.set, heq]
  · by_cases hne : v = bagGet m._data p
    · simp [Model.set, hne]
    · simp [Model.set, hne]

/-- Witness for C6 at a concrete input. -/
theorem claim_C6_witness :
    (some (JVal.num 2) ≠ bagGet (Model.make [] fresh0)._data widthKey →
      ((Model.make [] fresh0).set widthKey (some (JVal.num 2)) false false).2
        = [Event.changeProp widthKey (some (JVal.num 2))
            (bagGet (Model.make [] fresh0)._data widthKey), Event.change])
    ∧ (some (JVal.num 2) = bagGet (Model.make [] fresh0)._data widthKey →
      ((Model.make [] fresh0).set widthKey (some (JVal.num 2)) false false).2 = [])
    ∧ ((Model.make [] fresh0).set widthKey (some (JVal.num 2)) true false).2 = [] :=
  claim_C6_set_events (Model.make [] fresh0) widthKey (some (JVal.num 2))
    (by decide)

/-- C4 counterexample: `set('uuid', v)` neither raises nor preserves the
uuid — it succeeds and overwrites the value. -/
theorem claim_C4_counterexample :
    ((Model.make [] fresh0).set uuidKey (some (JVal.str otherU)) false false).1.uuid
      = some (JVal.str otherU)
    ∧ (Model.make [] fresh0).uuid = some (JVal.str fresh0) := by decide

/-- C4 as amended: the mutation interface does not protect `uuid` and
`identity`.  For any model, `set` with a strictly different value
completes without an error, overwrites the stored value, and dispatches
the usual change events. -/
theorem claim_C4_set_overwrites_identity (m : Model) (u i : JVal)
    (hu : some u ≠ bagGet m._data uuidKey)
    (hi : some i ≠ bagGet m._data identityKey) :
    ((m.set uuidKey (some u) false false).1.uuid = some u
      ∧ (m.set uuidKey (some u) false false).2
          = [Event.changeProp uuidKey (some u) (bagGet m._data uuidKey),
             Event.change])
    ∧ (m.set identityKey (some i) false false).1.getModelIdentity = some i := by
  refine ⟨⟨?_, ?_⟩, ?_⟩
  · simp only [Model.set, Model.uuid, Model.get, hu, if_pos, ne_eq,
      not_false_eq_true, if_true]
    simp [hu, bagGet_bagSet]
  · simp only [Model.set, dispatchChange, ne_eq]
    rw [if_pos (by simpa [uuidKey] using hu)]
    simp [uuidKey]
  · simp only [Model.set, Model.getModelIdentity, Model.get, hi]
    simp [hi, bagGet_bagSet]

/-- Witness for C4's amended statement at a concrete input. -/
theorem claim_C4_witness :
    (((Model.make [] fresh0).set uuidKey (some (JVal.str otherU)) false false).1.uuid
        = some (JVal.str otherU)
      ∧ ((Model.make [] fresh0).set uuidKey (some (JVal.str otherU)) false false).2
          = [Event.changeProp uuidKey (some (JVal.str otherU))
              (bagGet (Model.make [] fresh0)._data uuidKey), Event.change])
    ∧ ((Model.make [] fresh0).set identityKey (some (JVal.str otherU)) false false).1.getModelIdentity
        = some (JVal.str otherU) :=
  claim_C4_set_overwrites_identity (Model.make [] fresh0)
    (JVal.str otherU) (JVal.str otherU) (by decide) (by decide)

theorem obagSet_cons_ne (k : String) (w : Option JVal) (d : OBag)
    (p : String) (v : Option JVal) (h : k ≠ p) :
    obagSet ((k, w) :: d) p v = (k, w) :: obagSet d p v := by
  simp [obagSet, h]

theorem assignOverO_cons_notin (k : String) (w : Option JVal) (d : OBag)
    (D : Bag) (hk : k ∉ D.map Prod.fst) :
    assignOverO ((k, w) :: d) D = (k, w) :: assignOverO d D := by
  induction D generalizing d with
  | nil => rfl
  | cons q D2 ih =>
    have hk1 : k ≠ q.1 := by
      intro he
      exact hk (by simp [he])
    have hk2 : k ∉ D2.map Prod.fst := by
      intro hm
      exact hk (by simp [hm])
    simp only [assignOverO, List.foldl_cons] at *
    rw [obagSet_cons_ne k w d q.1 (some q.2) hk1]
    exact ih (obagSet d q.1 (some q.2)) hk2

theorem mem_keys_obagSet (d : OBag) (p : String) (v : Option JVal) (k : String)
    (h : k ∈ (obagSet d p v).map Prod.fst) :
    k ∈ d.map Prod.fst ∨ k = p := by
  induction d with
  | nil =>
    simp [obagSet] at h
    exact Or.inr h
  | cons q rest ih =>
    by_cases hq : q.1 = p
    · simp [obagSet, hq] at h
      rcases h with h | h
      · exact Or.inr h
      · exact Or.inl (by simp [hq, h])
    · simp only [obagSet, if_neg hq, List.map_cons, List.mem_cons] at h
      rcases h with h | h
      · exact Or.inl (by simp [h])
      · rcases ih h with h2 | h2
        · exact Or.inl (by simp [h2])
        · exact Or.inr h2

theorem mem_keys_assignOverO (d : OBag) (D : Bag) (k : String)
    (h : k ∈ (assignOverO d D).map Prod.fst) :
    k ∈ d.map Prod.fst ∨ k ∈ D.map Prod.fst := by
  induction D generalizing d with
  | nil => exact Or.inl h
  | cons q D2 ih =>
    simp only [assignOverO, List.foldl_cons] at h
    rcases ih (obagSet d q.1 (some q.2)) h with h2 | h2
    · rcases mem_keys_obagSet d q.1 (some q.2) k h2 with h3 | h3
      · exact Or.inl h3
      · exact Or.inr (by simp [h3])
    · exact Or.inr (by simp [h2])

theorem mem_keys_obagCollapse (d : OBag) (k : String)
    (h : k ∈ (obagCollapse d).map Prod.fst) :
    k ∈ d.map Prod.fst := by
  simp only [obagCollapse, List.map_filterMap, List.mem_filterMap] at h
  obtain ⟨q, hq, hk⟩ := h
  rcases q with ⟨a, b⟩
  cases b with
  | none => simp at hk
  | some w =>
    simp at hk
    subst hk
    exact List.mem_map.mpr ⟨(a, some w), hq, rfl⟩

theorem bagGet_foldl_bagSet_notin (l : Bag) (b : Bag) (k : String)
    (hk : k ∉ l.map Prod.fst) :
    bagGet (l.foldl (fun acc q => bagSet acc q.1 q.2) b) k = bagGet b k := by
  induction l generalizing b with
  | nil => rfl
  | cons q l2 ih =>
    have hk1 : k ≠ q.1 := by
      intro he
      exact hk (by simp [he])
    have hk2 : k ∉ l2.map Prod.fst := by
      intro hm
      exact hk (by simp [hm])
    simp only [List.foldl_cons]
    rw [ih (bagSet b q.1 q.2) hk2, bagGet_bagSet, if_neg hk1]

theorem withDefaultDataO_defined (u i : JVal) (f : String) :
    withDefaultDataO [(uuidKey, some u), (identityKey, some i)] f
      = [(uuidKey, some u), (identityKey, some i)] := by
  simp [withDefaultDataO, getDefaults, obagGet, List.find?, uuidKey, identityKey]

/-- C5 counterexample: a new-defaults bag that itself carries a `uuid`
entry overwrites the preserved uuid, because `resetData` assigns
`defaultData` over the preservation bag last. -/
theorem claim_C5_counterexample :
    bagGet (((Model.make [] fresh0).resetData
        [(uuidKey, JVal.str otherU)] fresh1 false).1)._data uuidKey
      = some (JVal.str otherU)
    ∧ bagGet (Model.make [] fresh0)._data uuidKey = some (JVal.str fresh0) := by
  decide

/-- C5 as amended: `resetData` preserves `uuid` and `identity` for every
new-defaults bag that does not itself contain a `uuid` or `identity`
entry; a bag containing such an entry overwrites them. -/
theorem claim_C5_resetData_preserves (m : Model) (u i : JVal) (D : Bag)
    (f : String) (ss : Bool)
    (hu : bagGet m._data uuidKey = some u)
    (hi : bagGet m._data identityKey = some i)
    (hDu : uuidKey ∉ D.map Prod.fst)
    (hDi : identityKey ∉ D.map Prod.fst) :
    bagGet ((m.resetData D f ss).1)._data uuidKey = some u
    ∧ bagGet ((m.resetData D f ss).1)._data identityKey = some i := by
  have hshape : assignOverO (withDefaultDataO
      [(uuidKey, bagGet m._data uuidKey), (identityKey, bagGet m._data identityKey)] f) D
      = (uuidKey, some u) :: (identityKey, some i) :: assignOverO [] D := by
    rw [hu, hi, withDefaultDataO_defined]
    rw [assignOverO_cons_notin uuidKey (some u) _ D hDu]
    rw [assignOverO_cons_notin identityKey (some i) _ D hDi]
  have hTu : uuidKey ∉ (obagCollapse (assignOverO [] D)).map Prod.fst := by
    intro hmem
    rcases mem_keys_assignOverO [] D uuidKey
        (mem_keys_obagCollapse _ uuidKey hmem) with h | h
    · simp at h
    · exact hDu h
  have hTi : identityKey ∉ (obagCollapse (assignOverO [] D)).map Prod.fst := by
    intro hmem
    rcases mem_keys_assignOverO [] D identityKey
        (mem_keys_obagCollapse _ identityKey hmem) with h | h
    · simp at h
    · exact hDi h
  simp only [Model.resetData, Model.assignData, hshape, obagCollapse,
    List.filterMap_cons, Option.map_some, Option.map_some', List.foldl_cons]
  simp only [obagCollapse] at hTu hTi
  constructor
  · rw [bagGet_foldl_bagSet_notin _ _ uuidKey hTu]
    rw [bagGet_bagSet, if_neg (by decide), bagGet_bagSet, if_pos rfl]
  · rw [bagGet_foldl_bagSet_notin _ _ identityKey hTi]
    rw [bagGet_bagSet, if_pos rfl]

/-- Witness for C5's amended statement at a concrete input. -/
theorem claim_C5_witness :
    bagGet (((Model.make [] fresh0).resetData [(widthKey, JVal.num 5)]
        fresh1 false).1)._data uuidKey = some (JVal.str fresh0)
    ∧ bagGet (((Model.make [] fresh0).resetData [(widthKey, JVal.num 5)]
        fresh1 false).1)._data identityKey = some (JVal.str modelIdentityTag) :=
  claim_C5_resetData_preserves (Model.make [] fresh0)
    (JVal.str fresh0) (JVal.str modelIdentityTag) [(widthKey, JVal.num 5)]
    fresh1 false (by decide) (by decide) (by decide) (by decide)

theorem rmapGet_rmapSet (m : RMap) (k k2 : Option JVal) (v : Model) :
    rmapGet (rmapSet m k v) k2 = if k2 = k then some v else rmapGet m k2 := by
  induction m with
  | nil =>
    simp only [rmapSet, rmapGet, List.find?]
    by_cases h : k = k2
    · subst h; simp
    · simp [h, Ne.symm h]
  | cons q rest ih =>
    simp only [rmapSet]
    by_cases hq : q.1 = k
    · subst hq
      by_cases h2 : k2 = q.1
      · subst h2; simp [rmapGet, List.find?]
      · simp only [if_pos rfl]
        simp [rmapGet, List.find?, h2, Ne.symm h2]
    · simp only [if_neg hq]
      by_cases h2 : k2 = q.1
      · subst h2
        simp [rmapGet, List.find?, hq]
      · simp only [rmapGet, List.find?] at ih ⊢
        have : (q.1 = k2) = False := by
          simp [Ne.symm h2]
        simp [this, ih]

theorem setE_atomic (r : Registry) (k : Option JVal) (v : Model) (e : RegErr)
    (h : (r.setE k v).2 = Except.error e) : (r.setE k v).1 = r := by
  unfold Registry.setE at h ⊢
  cases hv : r.validateE k with
  | error e2 => simp [hv]
  | ok _ =>
    cases hm : r._map with
    | none => simp [hv, hm]
    | some m => simp [hv, hm] at h

theorem register_atomic (r : Registry) (model : Model) (key : Option JVal)
    (e : RegErr) (h : (r.register model key).2 = Except.error e) :
    (r.register model key).1 = r := by
  unfold Registry.register at h ⊢
  cases key with
  | some k => exact setE_atomic r (some k) model e h
  | none =>
    cases hd : r.getValidKeyIn (some model.getDataReference) with
    | error e2 => simp [hd]
    | ok rk =>
      simp only [hd] at h ⊢
      exact setE_atomic r rk model e h

theorem getModelCreate_atomic (r : Registry) (d : Bag) (ctor : Option CtorFn)
    (ck : Option JVal) (e : RegErr)
    (h : (r.getModelCreate d ctor ck).2 = Except.error e) :
    (r.getModelCreate d ctor ck).1 = r := by
  unfold Registry.getModelCreate at h ⊢
  cases hme : (match ctor with
    | some c => c d
    | none => r.newInstanceForE d) with
  | error e2 => simp [hme]
  | ok model =>
    simp only [hme] at h ⊢
    cases hreg : r.register model ck with
    | mk r1 res =>
      cases res with
      | ok _ => simp [hreg] at h
      | error e2 =>
        simp only [hreg] at h ⊢
        have h1 : (r.register model ck).2 = Except.error e2 := by
          rw [hreg]
        have := register_atomic r model ck e2 h1
        rw [hreg] at this
        exact this

/-- C7.  A failed `getModel` call leaves the registry map exactly as it
was: every throwing path of `getModel` precedes the single map write,
which happens only after validation succeeds. -/
theorem claim_C7_getModel_atomic (r : Registry) (data : Option Bag)
    (ctor : Option CtorFn) (e : RegErr)
    (h : (Registry.getModel r data ctor).2 = Except.error e) :
    (Registry.getModel r data ctor).1 = r := by
  unfold Registry.getModel at h ⊢
  cases data with
  | none => rfl
  | some d =>
    cases hk : r.getValidKeyIn (some d) with
    | ok k =>
      simp only [hk] at h ⊢
      cases hm : r._map with
      | none => simp [hm]
      | some M =>
        simp only [hm] at h ⊢
        cases hg : rmapGet M k with
        | some cached => simp [hg] at h
        | none =>
          simp only [hg] at h ⊢
          exact getModelCreate_atomic r d ctor k e h
    | error e2 =>
      cases e2 with
      | invalidKey k2 =>
        simp only [hk] at h ⊢
        exact getModelCreate_atomic r d ctor none e h
      | typeErr msg => simp [hk]
      | err msg => simp [hk]
      | external code => simp [hk]

/-- Witness for C7 at a concrete input: a factory whose construction
throws leaves the registry untouched. -/
theorem claim_C7_witness :
    (Registry.getModel (mkRegistry badFactory defaultROptions [])
        (some exBagA) none).1
      = mkRegistry badFactory defaultROptions [] :=
  claim_C7_getModel_atomic (mkRegistry badFactory defaultROptions [])
    (some exBagA) none (RegErr.external 7) rfl

/-- C8.  `dataHasValidKey` returns `false` exactly when key extraction
raises the invalid-registry-key error, re-raises every other error
unchanged, and in particular raises the missing-argument type error for
an undefined data argument instead of returning `false`. -/
theorem claim_C8_dataHasValidKey (r : Registry) (data : Option Bag) :
    (r.dataHasValidKey data = Except.ok false
        ↔ ∃ k, r.getValidKeyIn data = Except.error (RegErr.invalidKey k))
    ∧ (∀ e : RegErr, r.getValidKeyIn data = Except.error e →
        (∀ k, e ≠ RegErr.invalidKey k) →
        r.dataHasValidKey data = Except.error e)
    ∧ r.dataHasValidKey none = Except.error (RegErr.typeErr msgDataRequired) := by
  refine ⟨?_, ?_, rfl⟩
  · unfold Registry.dataHasValidKey
    cases hk : r.getValidKeyIn data with
    | ok k => simp
    | error e2 =>
      cases e2 with
      | invalidKey k2 => simp
      | typeErr msg => simp
      | err msg => simp
      | external code => simp
  · intro e he hne
    unfold Registry.dataHasValidKey
    rw [he]
    cases e with
    | invalidKey k2 => exact absurd rfl (hne k2)
    | typeErr msg => rfl
    | err msg => rfl
    | external code => rfl

/-- Witness for C8 at concrete inputs: a bag without a uuid yields
`false`, an undefined argument raises the type error. -/
theorem claim_C8_witness :
    exRegistry.dataHasValidKey (some exBagBad) = Except.ok false
    ∧ exRegistry.dataHasValidKey none
        = Except.error (RegErr.typeErr msgDataRequired) :=
  ⟨(claim_C8_dataHasValidKey exRegistry (some exBagBad)).1.mpr ⟨none, rfl⟩,
   (claim_C8_dataHasValidKey exRegistry (some exBagBad)).2.2⟩

/-- C9.  The code intends `dispose` to be idempotent (the
`// Already disposed?` guard), but `_deleteReferences` assigns
`undefined` instead of deleting the own property, so the
`hasOwnProperty('_map')` guard never fires: the first call clears the
map and drops the references as claimed, while a second call
dereferences the undefined `_map` in `clear()` and throws a `TypeError`
instead of being a no-op. -/
theorem claim_C9_dispose_second_call_throws :
    (Registry.dispose exRegistry).2 = Except.ok ()
    ∧ ((Registry.dispose exRegistry).1)._map = none
    ∧ ((Registry.dispose exRegistry).1)._factory = none
    ∧ ((Registry.dispose exRegistry).1)._options = none
    ∧ (Registry.dispose ((Registry.dispose exRegistry).1)).2
        = Except.error (RegErr.typeErr msgUndefinedField) :=
  ⟨rfl, rfl, rfl, rfl, rfl⟩

/-- C1.  With the default key attribute and validator, two data bags
carrying the same uuid string resolve to the same registry key; after a
first successful `getModel`, the second call hits the cache and returns
the identical model with the registry unchanged, for any constructor
override and regardless of the factory. -/
theorem claim_C1_getModel_dedup (f : FactoryFn) (M : RMap) (ao : Bool)
    (d1 d2 : Bag) (u : String) (ctor1 ctor2 : Option CtorFn)
    (m1 : Model) (r1 : Registry)
    (h1 : bagGet d1 uuidKey = some (JVal.str u))
    (h2 : bagGet d2 uuidKey = some (JVal.str u))
    (hr : Registry.getModel (mkRegistry f
        { keyAttr := KeyAttr.attr uuidKey, allowOverrides := ao,
          keyValidator := some defaultKeyValidator } M) (some d1) ctor1
        = (r1, Except.ok m1)) :
    Registry.getModel r1 (some d2) ctor2 = (r1, Except.ok m1) := by
  set o : ROptions :=
    { keyAttr := KeyAttr.attr uuidKey, allowOverrides := ao,
      keyValidator := some defaultKeyValidator } with ho
  set r : Registry := mkRegistry f o M with hrdef
  have hkey1 : r.getValidKeyIn (some d1) = Except.ok (some (JVal.str u)) := by
    simp [Registry.getValidKeyIn, Registry.isValidKeyE, hrdef, ho, mkRegistry,
      createKeyGetter, h1, defaultKeyValidator]
  have hkey2 : ∀ r2 : Registry,
      r2._keyGetter = some (createKeyGetter (KeyAttr.attr uuidKey)) →
      r2._options = some o →
      r2.getValidKeyIn (some d2) = Except.ok (some (JVal.str u)) := by
    intro r2 hg hopt
    simp [Registry.getValidKeyIn, Registry.isValidKeyE, hg, hopt, ho,
      createKeyGetter, h2, defaultKeyValidator]
  unfold Registry.getModel at hr
  have hmap : r._map = some M := rfl
  simp only [hkey1, hmap] at hr
  cases hg : rmapGet M (some (JVal.str u)) with
  | some cached =>
    simp only [hg] at hr
    have hr1 : r1 = r := by
      have := congrArg Prod.fst hr
      exact this.symm
    have hm1 : m1 = cached := by
      have := congrArg Prod.snd hr
      simp at this
      exact this.symm
    subst hr1
    subst hm1
    unfold Registry.getModel
    simp only [hkey2 r rfl rfl, hmap, hg]
  | none =>
    simp only [hg] at hr
    unfold Registry.getModelCreate at hr
    cases hme : (match ctor1 with
      | some c => c d1
      | none => r.newInstanceForE d1) with
    | error e2 => rw [hme] at hr; simp at hr
    | ok model =>
      rw [hme] at hr
      have hreg : r.register model (some (JVal.str u))
          = ({ r with _map := some (rmapSet M (some (JVal.str u)) model) },
             Except.ok ()) := by
        simp only [Registry.register, Registry.setE, Registry.validateE,
          Registry.isValidKeyE, hrdef, mkRegistry, defaultKeyValidator, hg]
        simp
      simp only [hreg] at hr
      have hr1 : r1 = { r with _map := some (rmapSet M (some (JVal.str u)) model) } := by
        have := congrArg Prod.fst hr
        exact this.symm
      have hm1 : m1 = model := by
        have := congrArg Prod.snd hr
        simp at this
        exact this.symm
      subst hr1
      subst hm1
      unfold Registry.getModel
      have hos : ({ r with _map := some (rmapSet M (some (JVal.str u)) m1) } :
          Registry)._options = some o := rfl
      have hgs : ({ r with _map := some (rmapSet M (some (JVal.str u)) m1) } :
          Registry)._keyGetter
          = some (createKeyGetter (KeyAttr.attr uuidKey)) := rfl
      simp only [hkey2 _ hgs hos]
      simp [rmapGet_rmapSet]

/-- Witness for C1 at a concrete input: the registry already holding the
model built for `exBagA` returns that same model for `exBagB`, which
carries the same uuid, leaving its map unchanged. -/
theorem claim_C1_witness :
    Registry.getModel (mkRegistry exFactory
        { keyAttr := KeyAttr.attr uuidKey, allowOverrides := false,
          keyValidator := some defaultKeyValidator }
        [(some (JVal.str fresh0), Model.make exBagA fresh1)]) (some exBagB) none
      = (mkRegistry exFactory
          { keyAttr := KeyAttr.attr uuidKey, allowOverrides := false,
            keyValidator := some defaultKeyValidator }
          [(some (JVal.str fresh0), Model.make exBagA fresh1)],
         Except.ok (Model.make exBagA fresh1)) :=
  claim_C1_getModel_dedup exFactory
    [(some (JVal.str fresh0), Model.make exBagA fresh1)] false
    exBagA exBagB fresh0 none none (Model.make exBagA fresh1)
    (mkRegistry exFactory
      { keyAttr := KeyAttr.attr uuidKey, allowOverrides := false,
        keyValidator := some defaultKeyValidator }
      [(some (JVal.str fresh0), Model.make exBagA fresh1)])
    rfl rfl rfl

theorem occurs_cons (p : List Char) (c : Char) (t : List Char) :
    Occurs p (c :: t) ↔ p <+: (c :: t) ∨ Occurs p t := by
  constructor
  · rintro ⟨a, b, h⟩
    cases a with
    | nil =>
      left
      exact ⟨b, by simpa using h.symm⟩
    | cons a0 a2 =>
      right
      refine ⟨a2, b, ?_⟩
      simpa using congrArg List.tail h
  · rintro (⟨b, hb⟩ | ⟨a, b, h⟩)
    · exact ⟨[], b, by simpa using hb.symm⟩
    · exact ⟨c :: a, b, by simp [h]⟩

theorem occurs_not_nil (p : List Char) (hp : p ≠ []) : ¬ Occurs p [] := by
  rintro ⟨a, b, h⟩
  have := h.symm
  simp only [List.append_eq_nil] at this
  exact hp this.1.2

theorem countOcc_ne_zero_iff (p s : List Char) (hp : p ≠ []) :
    countOcc p s ≠ 0 ↔ Occurs p s := by
  induction s with
  | nil =>
    simp only [countOcc, ne_eq, not_true_eq_false, false_iff]
    exact occurs_not_nil p hp
  | cons c t ih =>
    rw [occurs_cons]
    simp only [countOcc]
    by_cases hpf : p.isPrefixOf (c :: t)
    · simp [hpf, List.isPrefixOf_iff_prefix.mp hpf]
    · have : ¬ p <+: (c :: t) := fun hc =>
        hpf (List.isPrefixOf_iff_prefix.mpr hc)
      simp [hpf, this, ih]

theorem occurs_append_right (p a b : List Char) (h : Occurs p a) :
    Occurs p (a ++ b) := by
  obtain ⟨x, y, hx⟩ := h
  exact ⟨x, y ++ b, by simp [hx]⟩

theorem occurs_append_left (p a b : List Char) (h : Occurs p b) :
    Occurs p (a ++ b) := by
  obtain ⟨x, y, hx⟩ := h
  exact ⟨a ++ x, y, by simp [hx]⟩

theorem occurs_trans (u m s : List Char) (h1 : Occurs u m) (h2 : Occurs m s) :
    Occurs u s := by
  obtain ⟨x, y, hx⟩ := h1
  obtain ⟨a, b, ha⟩ := h2
  refine ⟨a ++ x, y ++ b, ?_⟩
  simp [ha, hx]

theorem occurs_length_le (p s : List Char) (h : Occurs p s) :
    p.length ≤ s.length := by
  obtain ⟨a, b, ha⟩ := h
  subst ha
  simp
  omega

theorem occurs_eq_of_length_le (p s : List Char) (h : Occurs p s)
    (hl : s.length ≤ p.length) : p = s := by
  obtain ⟨a, b, ha⟩ := h
  subst ha
  simp only [List.length_append] at hl
  have ha0 : a = [] := List.eq_nil_of_length_eq_zero (by omega)
  have hb0 : b = [] := List.eq_nil_of_length_eq_zero (by omega)
  subst ha0
  subst hb0
  simp

theorem pfx_of_append_sep (p a b : List Char) (c : Char) (hc : c ∉ p)
    (h : p <+: (a ++ c :: b)) : p <+: a := by
  by_cases hl : p.length ≤ a.length
  · have heq : p = (a ++ c :: b).take p.length := List.prefix_iff_eq_take.mp h
    rw [List.take_append_eq_append_take, Nat.sub_eq_zero_of_le hl,
      List.take_zero, List.append_nil] at heq
    rw [heq]
    exact List.take_prefix _ a
  · exfalso
    have heq : p = (a ++ c :: b).take p.length := List.prefix_iff_eq_take.mp h
    rw [List.take_append_eq_append_take] at heq
    have hk : 0 < p.length - a.length := by omega
    apply hc
    rw [heq]
    refine List.mem_append.mpr (Or.inr ?_)
    cases hkk : p.length - a.length with
    | zero => omega
    | succ k => simp [hkk]

theorem replAux_congr (pat rep : List Char) :
    ∀ (n : Nat) (s : List Char) (m : Nat), s.length ≤ n → s.length ≤ m →
      replAux pat rep n s = replAux pat rep m s := by
  intro n
  induction n with
  | zero =>
    intro s m h1 _
    have hs : s = [] := List.eq_nil_of_length_eq_zero (Nat.le_zero.mp h1)
    subst hs
    cases m <;> rfl
  | succ k ih =>
    intro s m h1 h2
    cases s with
    | nil => cases m <;> rfl
    | cons c t =>
      cases m with
      | zero => simp at h2
      | succ m2 =>
        simp only [replAux]
        by_cases hpf : pat.isPrefixOf (c :: t)
        · simp only [if_pos hpf]
          congr 1
          refine ih _ m2 ?_ ?_
          · have := List.length_drop (pat.length - 1) t
            simp only [List.length_cons] at h1
            omega
          · have := List.length_drop (pat.length - 1) t
            simp only [List.length_cons] at h2
            omega
        · simp only [if_neg hpf]
          congr 1
          refine ih t m2 ?_ ?_
          · simp only [List.length_cons] at h1; omega
          · simp only [List.length_cons] at h2; omega

theorem replaceAll_nil (pat rep : List Char) : replaceAll pat rep [] = [] := rfl

theorem replaceAll_cons_pos (pat rep : List Char) (c : Char) (t : List Char)
    (h : pat.isPrefixOf (c :: t) = true) :
    replaceAll pat rep (c :: t)
      = rep ++ replaceAll pat rep (List.drop (pat.length - 1) t) := by
  show replAux pat rep (t.length + 1) (c :: t) = _
  simp only [replAux, if_pos h]
  congr 1
  refine replAux_congr pat rep t.length _ _ ?_ le_rfl
  have := List.length_drop (pat.length - 1) t
  omega

theorem replaceAll_cons_neg (pat rep : List Char) (c : Char) (t : List Char)
    (h : pat.isPrefixOf (c :: t) = false) :
    replaceAll pat rep (c :: t) = c :: replaceAll pat rep t := by
  show replAux pat rep (t.length + 1) (c :: t) = _
  simp only [replAux, h]
  rfl

theorem replaceAll_of_countOcc_zero (pat rep s : List Char)
    (h : countOcc pat s = 0) : replaceAll pat rep s = s := by
  induction s with
  | nil => rfl
  | cons c t ih =>
    simp only [countOcc] at h
    by_cases hpf : pat.isPrefixOf (c :: t)
    · simp [hpf] at h
    · have hpf2 : pat.isPrefixOf (c :: t) = false := Bool.eq_false_iff.mpr hpf
      simp only [hpf2, if_false] at h
      rw [replaceAll_cons_neg pat rep c t hpf2, ih (by omega)]

theorem replaceAll_self (pat rep : List Char) (hp : pat ≠ []) :
    replaceAll pat rep pat = rep := by
  cases pat with
  | nil => exact absurd rfl hp
  | cons c t =>
    have hpf : (c :: t).isPrefixOf (c :: t) = true :=
      List.isPrefixOf_iff_prefix.mpr (List.prefix_refl _)
    rw [replaceAll_cons_pos _ rep c t hpf]
    simp only [List.length_cons, Nat.add_sub_cancel, List.drop_length]
    simp [replaceAll_nil]

theorem replaceAll_of_length_eq_ne (pat rep q : List Char)
    (hl : pat.length = q.length) (hne : q ≠ pat) :
    replaceAll pat rep q = q := by
  have hp : pat ≠ [] := by
    intro h
    subst h
    simp only [List.length_nil] at hl
    exact hne (List.eq_nil_of_length_eq_zero hl.symm)
  apply replaceAll_of_countOcc_zero
  by_contra hocc
  have := countOcc_ne_zero_iff pat q hp |>.mp hocc
  exact hne (occurs_eq_of_length_le pat q this (by omega)).symm

theorem isPrefixOf_nil_false (pat : List Char) (hp : pat ≠ []) :
    pat.isPrefixOf ([] : List Char) = false := by
  cases pat with
  | nil => exact absurd rfl hp
  | cons p0 pt => rfl

theorem pfxBool_append_sep (pat : List Char) (hp : pat ≠ []) (hq : dq ∉ pat)
    (x b : List Char) :
    pat.isPrefixOf (x ++ dq :: b) = pat.isPrefixOf x := by
  cases hx : pat.isPrefixOf x with
  | true =>
    have : pat <+: x ++ dq :: b :=
      (List.isPrefixOf_iff_prefix.mp hx).trans (List.prefix_append x _)
    exact List.isPrefixOf_iff_prefix.mpr this
  | false =>
    by_contra hcon
    have hext : pat.isPrefixOf (x ++ dq :: b) = true := by
      cases h2 : pat.isPrefixOf (x ++ dq :: b) with
      | true => rfl
      | false => exact absurd (hx ▸ h2) hcon
    have := pfx_of_append_sep pat x b dq hq (List.isPrefixOf_iff_prefix.mp hext)
    rw [List.isPrefixOf_iff_prefix.mpr this] at hx
    exact Bool.true_eq_false.mp hx

theorem replaceAll_append_sep (pat rep : List Char) (hp : pat ≠ [])
    (hq : dq ∉ pat) (a b : List Char) :
    replaceAll pat rep (a ++ dq :: b)
      = replaceAll pat rep a ++ dq :: replaceAll pat rep b := by
  suffices H : ∀ (n : Nat) (a : List Char), a.length ≤ n →
      replaceAll pat rep (a ++ dq :: b)
        = replaceAll pat rep a ++ dq :: replaceAll pat rep b from
    H a.length a le_rfl
  intro n
  induction n with
  | zero =>
    intro a ha
    have hs : a = [] := List.eq_nil_of_length_eq_zero (Nat.le_zero.mp ha)
    subst hs
    simp only [List.nil_append, replaceAll_nil]
    have hpf : pat.isPrefixOf (dq :: b) = false := by
      have := pfxBool_append_sep pat hp hq [] b
      rwa [isPrefixOf_nil_false pat hp] at this
    rw [replaceAll_cons_neg pat rep dq b hpf]
  | succ k ih =>
    intro a ha
    cases a with
    | nil =>
      simp only [List.nil_append, replaceAll_nil]
      have hpf : pat.isPrefixOf (dq :: b) = false := by
        have := pfxBool_append_sep pat hp hq [] b
        rwa [isPrefixOf_nil_false pat hp] at this
      rw [replaceAll_cons_neg pat rep dq b hpf]
    | cons c a2 =>
      have hsplit : c :: a2 ++ dq :: b = c :: (a2 ++ dq :: b) := rfl
      cases hpf : pat.isPrefixOf (c :: (a2 ++ dq :: b)) with
      | true =>
        have hpfx : pat <+: (c :: a2) := by
          refine pfx_of_append_sep pat (c :: a2) b dq hq ?_
          have : (c :: a2) ++ dq :: b = c :: (a2 ++ dq :: b) := rfl
          rw [this]
          exact List.isPrefixOf_iff_prefix.mp hpf
        have hlen : pat.length ≤ a2.length + 1 := by
          have := hpfx.length_le
          simpa using this
        rw [hsplit, replaceAll_cons_pos pat rep c _ hpf]
        rw [List.drop_append_of_le_length (by omega)]
        rw [replaceAll_cons_pos pat rep c a2 (List.isPrefixOf_iff_prefix.mpr hpfx)]
        have hdl : (List.drop (pat.length - 1) a2).length ≤ k := by
          have := List.length_drop (pat.length - 1) a2
          simp only [List.length_cons] at ha
          omega
        rw [ih (List.drop (pat.length - 1) a2) hdl]
        simp
      | false =>
        have hpf2 : pat.isPrefixOf (c :: a2) = false := by
          have := pfxBool_append_sep pat hp hq (c :: a2) b
          rw [show (c :: a2) ++ dq :: b = c :: (a2 ++ dq :: b) from rfl] at this
          rw [hpf] at this
          exact this.symm
        rw [hsplit, replaceAll_cons_neg pat rep c _ hpf]
        rw [replaceAll_cons_neg pat rep c a2 hpf2]
        have ha2 : a2.length ≤ k := by
          simp only [List.length_cons] at ha
          omega
        rw [ih a2 ha2]
        simp

theorem countOcc_append_sep (pat : List Char) (hp : pat ≠ []) (hq : dq ∉ pat)
    (a b : List Char) :
    countOcc pat (a ++ dq :: b) = countOcc pat a + countOcc pat b := by
  induction a with
  | nil =>
    simp only [List.nil_append, countOcc]
    have hpf : pat.isPrefixOf (dq :: b) = false := by
      have := pfxBool_append_sep pat hp hq [] b
      rwa [isPrefixOf_nil_false pat hp] at this
    simp [hpf]
  | cons c a2 ih =>
    have hsplit : c :: a2 ++ dq :: b = c :: (a2 ++ dq :: b) := rfl
    rw [hsplit]
    simp only [countOcc]
    have hind : pat.isPrefixOf (c :: (a2 ++ dq :: b)) = pat.isPrefixOf (c :: a2) := by
      have := pfxBool_append_sep pat hp hq (c :: a2) b
      rw [show (c :: a2) ++ dq :: b = c :: (a2 ++ dq :: b) from rfl] at this
      exact this
    rw [hind, ih]
    omega

theorem splitQuotes_ne_nil (s : List Char) : splitQuotes s ≠ [] := by
  cases s with
  | nil => simp [splitQuotes]
  | cons c t =>
    simp only [splitQuotes]
    by_cases hc : c = dq
    · simp [hc]
    · simp only [if_neg hc]
      cases hsp : splitQuotes t with
      | nil => simp
      | cons seg segs => simp

theorem joinQuotes_splitQuotes (s : List Char) :
    joinQuotes (splitQuotes s) = s := by
  induction s with
  | nil => rfl
  | cons c t ih =>
    simp only [splitQuotes]
    by_cases hc : c = dq
    · simp only [if_pos hc]
      cases hsp : splitQuotes t with
      | nil => exact absurd hsp (splitQuotes_ne_nil t)
      | cons seg segs =>
        show joinQuotes ([] :: seg :: segs) = c :: t
        simp only [joinQuotes, List.nil_append]
        rw [hc]
        rw [hsp] at ih
        exact congrArg (dq :: ·) ih
    · simp only [if_neg hc]
      cases hsp : splitQuotes t with
      | nil => exact absurd hsp (splitQuotes_ne_nil t)
      | cons seg segs =>
        rw [hsp] at ih
        cases segs with
        | nil =>
          show joinQuotes [c :: seg] = c :: t
          simp only [joinQuotes]
          have : joinQuotes [seg] = t := ih
          simp only [joinQuotes] at this
          rw [this]
        | cons y ys =>
          show joinQuotes ((c :: seg) :: y :: ys) = c :: t
          simp only [joinQuotes] at ih ⊢
          rw [List.cons_append, ih]

theorem countOcc_joinQuotes (pat : List Char) (hp : pat ≠ []) (hq : dq ∉ pat)
    (segs : List (List Char)) :
    countOcc pat (joinQuotes segs) = (segs.map (countOcc pat)).sum := by
  induction segs with
  | nil => simp [joinQuotes, countOcc]
  | cons x rest ih =>
    cases rest with
    | nil => simp [joinQuotes]
    | cons y r2 =>
      show countOcc pat (x ++ dq :: joinQuotes (y :: r2)) = _
      rw [countOcc_append_sep pat hp hq x _, ih]
      simp

theorem replaceAll_joinQuotes (pat rep : List Char) (hp : pat ≠ [])
    (hq : dq ∉ pat) (segs : List (List Char)) :
    replaceAll pat rep (joinQuotes segs)
      = joinQuotes (segs.map (replaceAll pat rep)) := by
  induction segs with
  | nil => rfl
  | cons x rest ih =>
    cases rest with
    | nil => rfl
    | cons y r2 =>
      show replaceAll pat rep (x ++ dq :: joinQuotes (y :: r2)) = _
      rw [replaceAll_append_sep pat rep hp hq x _, ih]
      rfl

theorem assocFind_cons (u f : List Char) (l : List (List Char × List Char))
    (k : List Char) :
    assocFind ((u, f) :: l) k = if u = k then some f else assocFind l k := by
  by_cases h : u = k <;> simp [assocFind, List.find?, h]

theorem assocFind_eq_none (l : List (List Char × List Char)) (k : List Char)
    (h : k ∉ umKeys l) : assocFind l k = none := by
  induction l with
  | nil => rfl
  | cons q rest ih =>
    have h1 : q.1 ≠ k := by
      intro he
      exact h (by simp [umKeys, he])
    have h2 : k ∉ umKeys rest := by
      intro hm
      apply h
      simp only [umKeys, List.map_cons, List.mem_cons]
      exact Or.inr (by simpa [umKeys] using hm)
    rw [show q = (q.1, q.2) from rfl, assocFind_cons, if_neg h1]
    exact ih h2

theorem assocFind_some_mem (l : List (List Char × List Char))
    (k v : List Char) (h : assocFind l k = some v) : (k, v) ∈ l := by
  induction l with
  | nil => simp [assocFind] at h
  | cons q rest ih =>
    rw [show q = (q.1, q.2) from rfl, assocFind_cons] at h
    by_cases hq : q.1 = k
    · rw [if_pos hq] at h
      have hv : q.2 = v := by simpa using h
      subst hq
      subst hv
      simp
    · rw [if_neg hq] at h
      exact List.mem_cons_of_mem _ (ih h)

theorem substTok_nil (seg : List Char) : substTok [] seg = seg := rfl

theorem rewriteAll_segments (um : List (List Char × List Char)) :
    ∀ segs : List (List Char),
      (umKeys um).Nodup →
      (∀ pr ∈ um, pr.1.length = 36 ∧ dq ∉ pr.1) →
      (∀ pr ∈ um, pr.2.length = 36 ∧ dq ∉ pr.2) →
      (∀ pr ∈ um, pr.2 ∉ umKeys um) →
      (∀ seg ∈ segs, ∀ pr ∈ um, countOcc pr.1 seg ≠ 0 → seg = pr.1) →
      rewriteAll um (joinQuotes segs) = joinQuotes (segs.map (substTok um)) := by
  induction um with
  | nil =>
    intro segs _ _ _ _ _
    have : segs.map (substTok []) = segs := by
      rw [List.map_congr_left (fun seg _ => substTok_nil seg)]
      exact List.map_id segs
    rw [this]
    rfl
  | cons pr0 um2 ihum =>
    rcases pr0 with ⟨u, f⟩
    intro segs hnodup hk hv hvk hseg
    have hu36 := hk (u, f) (List.mem_cons_self _ _)
    have hf36 := hv (u, f) (List.mem_cons_self _ _)
    have hune : u ≠ [] := by
      intro h
      rw [h] at hu36
      simp at hu36
    have step1 : rewriteAll ((u, f) :: um2) (joinQuotes segs)
        = rewriteAll um2 (replaceAll u f (joinQuotes segs)) := rfl
    have step2 : replaceAll u f (joinQuotes segs)
        = joinQuotes (segs.map (replaceAll u f)) :=
      replaceAll_joinQuotes u f hune hu36.2 segs
    have step3 : segs.map (replaceAll u f)
        = segs.map (fun seg => if seg = u then f else seg) := by
      refine List.map_congr_left ?_
      intro seg hm
      by_cases he : seg = u
      · rw [if_pos he, he]
        exact replaceAll_self u f hune
      · rw [if_neg he]
        refine replaceAll_of_countOcc_zero u f seg ?_
        by_contra hocc
        exact he (hseg seg hm (u, f) (List.mem_cons_self _ _) hocc)
    have hnodup2 : (umKeys um2).Nodup := by
      have : umKeys ((u, f) :: um2) = u :: umKeys um2 := rfl
      rw [this] at hnodup
      exact hnodup.of_cons
    have hk2 : ∀ pr ∈ um2, pr.1.length = 36 ∧ dq ∉ pr.1 :=
      fun pr hpr => hk pr (List.mem_cons_of_mem _ hpr)
    have hv2 : ∀ pr ∈ um2, pr.2.length = 36 ∧ dq ∉ pr.2 :=
      fun pr hpr => hv pr (List.mem_cons_of_mem _ hpr)
    have hvk2 : ∀ pr ∈ um2, pr.2 ∉ umKeys um2 := by
      intro pr hpr hm
      apply hvk pr (List.mem_cons_of_mem _ hpr)
      simp only [umKeys, List.map_cons, List.mem_cons]
      exact Or.inr (by simpa [umKeys] using hm)
    have hseg2 : ∀ seg1 ∈ segs.map (fun seg => if seg = u then f else seg),
        ∀ pr ∈ um2, countOcc pr.1 seg1 ≠ 0 → seg1 = pr.1 := by
      intro seg1 hm1 pr hpr hocc
      obtain ⟨seg, hmem, hstep⟩ := List.mem_map.mp hm1
      by_cases he : seg = u
      · rw [if_pos he] at hstep
        subst hstep
        have hpr1ne : pr.1 ≠ [] := by
          intro h0
          have := (hk2 pr hpr).1
          rw [h0] at this
          simp at this
        have hoc := (countOcc_ne_zero_iff pr.1 f hpr1ne).mp hocc
        have heq : pr.1 = f :=
          occurs_eq_of_length_le pr.1 f hoc
            (by rw [hf36.1, (hk2 pr hpr).1])
        exact heq.symm
      · rw [if_neg he] at hstep
        subst hstep
        exact hseg seg hmem pr (List.mem_cons_of_mem _ hpr) hocc
    have step4 := ihum (segs.map (fun seg => if seg = u then f else seg))
      hnodup2 hk2 hv2 hvk2 hseg2
    have step5 : (segs.map (fun seg => if seg = u then f else seg)).map
          (substTok um2)
        = segs.map (substTok ((u, f) :: um2)) := by
      rw [List.map_map]
      refine List.map_congr_left ?_
      intro seg hm
      by_cases he : seg = u
      · subst he
        show substTok um2 (if seg = seg then f else seg) = _
        rw [if_pos rfl]
        have hfn : assocFind um2 f = none := by
          refine assocFind_eq_none um2 f ?_
          intro hmk
          apply hvk (seg, f) (List.mem_cons_self _ _)
          simp only [umKeys, List.map_cons, List.mem_cons]
          exact Or.inr (by simpa [umKeys] using hmk)
        show substTok um2 f = substTok ((seg, f) :: um2) seg
        simp [substTok, hfn, assocFind_cons]
      · show substTok um2 (if seg = u then f else seg) = _
        rw [if_neg he]
        show substTok um2 seg = substTok ((u, f) :: um2) seg
        simp only [substTok, assocFind_cons, if_neg (Ne.symm he)]
    rw [step1, step2, step3, step4, step5]

theorem ttq_decomp (t : List Char) (pr : List Char × List Char)
    (h : ttq t = some pr) : t = pr.1 ++ pr.2 := by
  induction t generalizing pr with
  | nil => simp [ttq] at h
  | cons c r ih =>
    simp only [ttq] at h
    by_cases hc : c = dq
    · rw [if_pos hc] at h
      have : pr = ([dq], r) := by simpa using h.symm
      subst this
      simp [hc]
    · rw [if_neg hc] at h
      by_cases hn : c = nlC
      · rw [if_pos hn] at h
        simp at h
      · rw [if_neg hn] at h
        cases h2 : ttq r with
        | none => rw [h2] at h; simp at h
        | some pr2 =>
          rw [h2] at h
          have : pr = (c :: pr2.1, pr2.2) := by simpa using h.symm
          subst this
          have := ih pr2 h2
          simp [this]

theorem attrPat_length : attrPat.length = 8 := by decide

theorem attrMatchesAux_occurs :
    ∀ (fuel : Nat) (s m : List Char), m ∈ attrMatchesAux fuel s → Occurs m s := by
  intro fuel
  induction fuel with
  | zero => intro s m h; simp [attrMatchesAux] at h
  | succ fl ih =>
    intro s m h
    cases s with
    | nil => simp [attrMatchesAux] at h
    | cons c rest =>
      simp only [attrMatchesAux] at h
      by_cases hpf : attrPat.isPrefixOf (c :: rest)
      · rw [if_pos hpf] at h
        have hdec : c :: rest = attrPat ++ List.drop 8 (c :: rest) := by
          have hpfx := List.isPrefixOf_iff_prefix.mp hpf
          have htake : attrPat = (c :: rest).take 8 := by
            have := List.prefix_iff_eq_take.mp hpfx
            rwa [attrPat_length] at this
          conv_lhs => rw [← List.take_append_drop 8 (c :: rest)]
          rw [← htake]
        cases httq : ttq (List.drop 8 (c :: rest)) with
        | some pr =>
          rw [httq] at h
          rcases List.mem_cons.mp h with h1 | h2
          · subst h1
            refine ⟨[], pr.2, ?_⟩
            rw [hdec, ttq_decomp _ pr httq]
            simp
          · have hocc := ih pr.2 m h2
            have : c :: rest = (attrPat ++ pr.1) ++ pr.2 := by
              rw [hdec, ttq_decomp _ pr httq]
              simp
            rw [this]
            exact occurs_append_left m _ pr.2 hocc
        | none =>
          rw [httq] at h
          exact (occurs_cons m c rest).mpr (Or.inr (ih rest m h))
      · rw [if_neg hpf] at h
        exact (occurs_cons m c rest).mpr (Or.inr (ih rest m h))

theorem firstUuidAux_spec (m u : List Char) (h : firstUuidAux m = some u) :
    isUuidV4Chars u = true ∧ Occurs u m := by
  induction m with
  | nil => simp [firstUuidAux] at h
  | cons c t ih =>
    simp only [firstUuidAux] at h
    by_cases hu : isUuidV4Chars (List.take 36 (c :: t)) = true
    · rw [if_pos hu] at h
      have : u = List.take 36 (c :: t) := by simpa using h.symm
      subst this
      refine ⟨hu, ⟨[], List.drop 36 (c :: t), ?_⟩⟩
      simp [List.take_append_drop]
    · rw [if_neg hu] at h
      obtain ⟨h1, h2⟩ := ih h
      exact ⟨h1, (occurs_cons u c t).mpr (Or.inr h2)⟩

theorem extractedUuids_spec (s u : List Char) (h : u ∈ extractedUuids s) :
    isUuidV4Chars u = true ∧ Occurs u s := by
  obtain ⟨m, hm, hfu⟩ := List.mem_filterMap.mp h
  obtain ⟨h1, h2⟩ := firstUuidAux_spec m u hfu
  exact ⟨h1, occurs_trans u m s h2 (attrMatchesAux_occurs s.length s m hm)⟩

theorem uuidPosOk_ne_dq : ∀ i : Nat, uuidPosOk i dq = false := by
  intro i
  unfold uuidPosOk
  split
  · decide
  · split
    · decide
    · split
      · decide
      · decide

theorem not_dq_of_uuid_all :
    ∀ (u : List Char) (n : Nat),
      (List.enumFrom n u).all (fun p => uuidPosOk p.1 p.2) = true → dq ∉ u := by
  intro u
  induction u with
  | nil => intro n _; simp
  | cons c t ih =>
    intro n hall
    simp only [List.enumFrom, List.all_cons, Bool.and_eq_true] at hall
    intro hmem
    rcases List.mem_cons.mp hmem with h1 | h2
    · subst h1
      rw [uuidPosOk_ne_dq n] at hall
      exact Bool.false_ne_true hall.1
    · exact ih (n + 1) hall.2 h2

theorem uuid_shape (u : List Char) (h : isUuidV4Chars u = true) :
    u.length = 36 ∧ u ≠ [] ∧ dq ∉ u := by
  simp only [isUuidV4Chars, Bool.and_eq_true, decide_eq_true_eq] at h
  refine ⟨h.1, ?_, ?_⟩
  · intro h0
    rw [h0] at h
    simp at h
  · exact not_dq_of_uuid_all u 0 h.2

theorem assocSet_notin (acc : List (List Char × List Char)) (u v : List Char)
    (h : assocFind acc u = none) : assocSet acc u v = acc ++ [(u, v)] := by
  induction acc with
  | nil => rfl
  | cons q rest ih =>
    rw [show q = (q.1, q.2) from rfl, assocFind_cons] at h
    by_cases hq : q.1 = u
    · rw [if_pos hq] at h
      simp at h
    · rw [if_neg hq] at h
      show (if q.1 = u then (u, v) :: rest else q :: assocSet rest u v) = _
      rw [if_neg hq, ih h]
      simp

theorem assocFind_none_not_mem (l : List (List Char × List Char))
    (k : List Char) (h : assocFind l k = none) : k ∉ umKeys l := by
  induction l with
  | nil => simp [umKeys]
  | cons q rest ih =>
    rw [show q = (q.1, q.2) from rfl, assocFind_cons] at h
    by_cases hq : q.1 = k
    · rw [if_pos hq] at h
      simp at h
    · rw [if_neg hq] at h
      simp only [umKeys, List.map_cons, List.mem_cons]
      rintro (h1 | h2)
      · exact hq h1.symm
      · exact ih h (by simpa [umKeys] using h2)

theorem buildMapAux_nodup (gen : Nat → List Char)
    (hgen : ∀ m : Nat, gen m ≠ []) :
    ∀ (us : List (List Char)) (acc : List (List Char × List Char)) (n : Nat),
      (∀ pr ∈ acc, pr.2 ≠ []) → (umKeys acc).Nodup →
      (umKeys (buildMapAux gen us acc n)).Nodup
      ∧ (∀ pr ∈ buildMapAux gen us acc n, pr.2 ≠ []) := by
  intro us
  induction us with
  | nil => intro acc n hval hnd; exact ⟨hnd, hval⟩
  | cons u us2 ih =>
    intro acc n hval hnd
    simp only [buildMapAux]
    cases hfind : assocFind acc u with
    | some s =>
      have hs : s ≠ [] := hval (u, s) (assocFind_some_mem acc u s hfind)
      have hcond : (!s.isEmpty) = true := by
        simpa [List.isEmpty_iff] using hs
      simp only [hcond, if_true]
      exact ih acc n hval hnd
    | none =>
      simp only [Bool.false_eq_true, if_false]
      rw [assocSet_notin acc u (gen n) hfind]
      refine ih _ (n + 1) ?_ ?_
      · intro pr hpr
        rcases List.mem_append.mp hpr with h1 | h2
        · exact hval pr h1
        · have : pr = (u, gen n) := by simpa using h2
          rw [this]
          exact hgen n
      · have hkeys : umKeys (acc ++ [(u, gen n)]) = umKeys acc ++ [u] := by
          simp [umKeys]
        rw [hkeys]
        have humem : u ∉ umKeys acc := assocFind_none_not_mem acc u hfind
        rw [List.nodup_append]
        refine ⟨hnd, List.nodup_singleton u, ?_⟩
        intro a ha hb
        have : a = u := by simpa using hb
        subst this
        exact humem ha

theorem buildMapAux_mem_spec (gen : Nat → List Char)
    (hgen : ∀ m : Nat, gen m ≠ []) :
    ∀ (us : List (List Char)) (acc : List (List Char × List Char)) (n : Nat),
      (∀ pr ∈ acc, pr.2 ≠ []) →
      ∃ k, (buildMapAux gen us acc n).length = acc.length + k ∧
        ∀ pr ∈ buildMapAux gen us acc n,
          pr ∈ acc ∨ ∃ m, n ≤ m ∧ m < n + k ∧ pr.1 ∈ us ∧ pr.2 = gen m := by
  intro us
  induction us with
  | nil =>
    intro acc n _
    exact ⟨0, by simp [buildMapAux], fun pr hpr => Or.inl hpr⟩
  | cons u us2 ih =>
    intro acc n hval
    simp only [buildMapAux]
    cases hfind : assocFind acc u with
    | some s =>
      have hs : s ≠ [] := hval (u, s) (assocFind_some_mem acc u s hfind)
      have hcond : (!s.isEmpty) = true := by
        simpa [List.isEmpty_iff] using hs
      simp only [hcond, if_true]
      obtain ⟨k, hlen, hmem⟩ := ih acc n hval
      refine ⟨k, hlen, ?_⟩
      intro pr hpr
      rcases hmem pr hpr with h1 | ⟨m, hm1, hm2, hm3, hm4⟩
      · exact Or.inl h1
      · exact Or.inr ⟨m, hm1, hm2, List.mem_cons_of_mem _ hm3, hm4⟩
    | none =>
      simp only [Bool.false_eq_true, if_false]
      rw [assocSet_notin acc u (gen n) hfind]
      have hval2 : ∀ pr ∈ acc ++ [(u, gen n)], pr.2 ≠ [] := by
        intro pr hpr
        rcases List.mem_append.mp hpr with h1 | h2
        · exact hval pr h1
        · have : pr = (u, gen n) := by simpa using h2
          rw [this]
          exact hgen n
      obtain ⟨k, hlen, hmem⟩ := ih (acc ++ [(u, gen n)]) (n + 1) hval2
      refine ⟨k + 1, by simp at hlen ⊢; omega, ?_⟩
      intro pr hpr
      rcases hmem pr hpr with h1 | ⟨m, hm1, hm2, hm3, hm4⟩
      · rcases List.mem_append.mp h1 with h2 | h3
        · exact Or.inl h2
        · have : pr = (u, gen n) := by simpa using h3
          subst this
          exact Or.inr ⟨n, le_rfl, by omega, List.mem_cons_self _ _, rfl⟩
      · exact Or.inr ⟨m, by omega, by omega, List.mem_cons_of_mem _ hm3, hm4⟩

theorem uuidMap_nodup (gen : Nat → List Char) (s : List Char)
    (hgen : ∀ m : Nat, gen m ≠ []) :
    (umKeys (uuidMapOfChars gen s)).Nodup :=
  (buildMapAux_nodup gen hgen (extractedUuids s) [] 0 (by simp)
    (by simp [umKeys])).1

theorem uuidMap_mem (gen : Nat → List Char) (s : List Char)
    (hgen : ∀ m : Nat, gen m ≠ []) :
    ∀ pr ∈ uuidMapOfChars gen s,
      pr.1 ∈ extractedUuids s
      ∧ ∃ m, m < (uuidMapOfChars gen s).length ∧ pr.2 = gen m := by
  obtain ⟨k, hlen, hmem⟩ :=
    buildMapAux_mem_spec gen hgen (extractedUuids s) [] 0 (by simp)
  intro pr hpr
  rcases hmem pr hpr with h1 | ⟨m, _, hm2, hm3, hm4⟩
  · simp at h1
  · have hk : (uuidMapOfChars gen s).length = k := by
      simpa [uuidMapOfChars] using hlen
    exact ⟨hm3, m, by rw [hk]; simpa using hm2, hm4⟩

theorem mem_umKeys (um : List (List Char × List Char)) (k : List Char) :
    k ∈ umKeys um ↔ ∃ v, (k, v) ∈ um := by
  constructor
  · intro h
    obtain ⟨pr, hpr, hfst⟩ := List.mem_map.mp h
    exact ⟨pr.2, by rw [← hfst]; exact hpr⟩
  · rintro ⟨v, hv⟩
    exact List.mem_map.mpr ⟨(k, v), hv, rfl⟩

theorem uuidMap_key_shape (gen : Nat → List Char) (s : List Char)
    (hshape : ∀ n : Nat, isUuidV4Chars (gen n) = true) :
    ∀ pr ∈ uuidMapOfChars gen s,
      (pr.1.length = 36 ∧ dq ∉ pr.1) ∧ pr.1 ≠ [] ∧ Occurs pr.1 s := by
  have hgen : ∀ m : Nat, gen m ≠ [] := fun m => (uuid_shape _ (hshape m)).2.1
  intro pr hpr
  obtain ⟨hex, _⟩ := uuidMap_mem gen s hgen pr hpr
  obtain ⟨hu, hocc⟩ := extractedUuids_spec s pr.1 hex
  obtain ⟨hl, hne, hdq⟩ := uuid_shape pr.1 hu
  exact ⟨⟨hl, hdq⟩, hne, hocc⟩

theorem uuidMap_value_shape (gen : Nat → List Char) (s : List Char)
    (hshape : ∀ n : Nat, isUuidV4Chars (gen n) = true) :
    ∀ pr ∈ uuidMapOfChars gen s, pr.2.length = 36 ∧ dq ∉ pr.2 := by
  have hgen : ∀ m : Nat, gen m ≠ [] := fun m => (uuid_shape _ (hshape m)).2.1
  intro pr hpr
  obtain ⟨_, m, _, hval⟩ := uuidMap_mem gen s hgen pr hpr
  obtain ⟨hl, _, hdq⟩ := uuid_shape (gen m) (hshape m)
  rw [hval]
  exact ⟨hl, hdq⟩

theorem uuidMap_value_not_key (gen : Nat → List Char) (s : List Char)
    (hshape : ∀ n : Nat, isUuidV4Chars (gen n) = true)
    (hfresh : ∀ n : Nat, n < (uuidMapOfChars gen s).length →
      countOcc (gen n) s = 0) :
    ∀ pr ∈ uuidMapOfChars gen s, pr.2 ∉ umKeys (uuidMapOfChars gen s) := by
  have hgen : ∀ m : Nat, gen m ≠ [] := fun m => (uuid_shape _ (hshape m)).2.1
  intro pr hpr hmem
  obtain ⟨_, m, hlt, hval⟩ := uuidMap_mem gen s hgen pr hpr
  obtain ⟨v2, hv2⟩ := (mem_umKeys _ _).mp hmem
  obtain ⟨_, hne2, hocc2⟩ := uuidMap_key_shape gen s hshape (pr.2, v2) hv2
  have h0 : countOcc pr.2 s = 0 := by
    rw [hval]
    exact hfresh m hlt
  exact (countOcc_ne_zero_iff pr.2 s hne2).mpr hocc2 h0

/-- Characterization of `copy`'s rewrite used by both copy claims: when
every occurrence of a mapped uuid in the serialized data is a whole
quote-delimited token, and the generated uuids are valid and fresh, the
rewritten string is exactly the original with each quoted segment equal
to a mapped uuid replaced by its image under the map. -/
theorem copyChars_segments (d : Json) (gen : Nat → List Char)
    (hshape : ∀ n : Nat, isUuidV4Chars (gen n) = true)
    (hfresh : ∀ n : Nat, n < (uuidMapOfChars gen (stringify d)).length →
      countOcc (gen n) (stringify d) = 0)
    (hseg : ∀ seg ∈ splitQuotes (stringify d),
      ∀ pr ∈ uuidMapOfChars gen (stringify d),
        countOcc pr.1 seg ≠ 0 → seg = pr.1) :
    modelCopyData d gen
      = joinQuotes ((splitQuotes (stringify d)).map
          (substTok (uuidMapOfChars gen (stringify d)))) := by
  have hgen : ∀ m : Nat, gen m ≠ [] := fun m => (uuid_shape _ (hshape m)).2.1
  have hmaster := rewriteAll_segments (uuidMapOfChars gen (stringify d))
    (splitQuotes (stringify d))
    (uuidMap_nodup gen (stringify d) hgen)
    (fun pr hpr => (uuidMap_key_shape gen (stringify d) hshape pr hpr).1)
    (uuidMap_value_shape gen (stringify d) hshape)
    (uuidMap_value_not_key gen (stringify d) hshape hfresh)
    hseg
  rw [joinQuotes_splitQuotes] at hmaster
  exact hmaster

/-- C2.  For a model whose serialized data carries the same original
uuid at several places, all of them quote-delimited values, and at least
one of them under a `uuid` key (so the uuid is a key of the rewrite
map), `copy()` replaces every occurrence of that uuid by one and the
same freshly generated uuid, which differs from the original. -/
theorem claim_C2_copy_shared_uuid (d : Json) (gen : Nat → List Char)
    (u f : List Char)
    (hshape : ∀ n : Nat, isUuidV4Chars (gen n) = true)
    (hfresh : ∀ n : Nat, n < (uuidMapOfChars gen (stringify d)).length →
      countOcc (gen n) (stringify d) = 0)
    (hseg : ∀ seg ∈ splitQuotes (stringify d),
      ∀ pr ∈ uuidMapOfChars gen (stringify d),
        countOcc pr.1 seg ≠ 0 → seg = pr.1)
    (hu : assocFind (uuidMapOfChars gen (stringify d)) u = some f)
    (hocc : 2 ≤ countOcc u (stringify d)) :
    f ≠ u
    ∧ substTok (uuidMapOfChars gen (stringify d)) u = f
    ∧ modelCopyData d gen
        = joinQuotes ((splitQuotes (stringify d)).map
            (substTok (uuidMapOfChars gen (stringify d))))
    ∧ countOcc u (modelCopyData d gen) = 0 := by
  have hgen : ∀ m : Nat, gen m ≠ [] := fun m => (uuid_shape _ (hshape m)).2.1
  set um := uuidMapOfChars gen (stringify d) with hum
  have humem : (u, f) ∈ um := assocFind_some_mem um u f hu
  have hukey := uuidMap_key_shape gen (stringify d) hshape (u, f) humem
  have hfne : f ≠ u := by
    intro he
    have hnk := uuidMap_value_not_key gen (stringify d) hshape hfresh
      (u, f) humem
    apply hnk
    rw [he]
    exact (mem_umKeys um u).mpr ⟨f, humem⟩
  have hchar := copyChars_segments d gen hshape hfresh hseg
  refine ⟨hfne, by simp [substTok, hu], hchar, ?_⟩
  rw [hchar]
  rw [countOcc_joinQuotes u hukey.2.1 hukey.1.2]
  refine List.sum_eq_zero ?_
  intro x hx
  obtain ⟨seg2, hm2, hx2⟩ := List.mem_map.mp hx
  obtain ⟨seg, hm, hsub⟩ := List.mem_map.mp hm2
  subst hx2
  subst hsub
  cases hfind : assocFind um seg with
  | some f2 =>
    have hmem2 : (seg, f2) ∈ um := assocFind_some_mem um seg f2 hfind
    have hv2 := uuidMap_value_shape gen (stringify d) hshape (seg, f2) hmem2
    have hnk2 := uuidMap_value_not_key gen (stringify d) hshape hfresh
      (seg, f2) hmem2
    simp only [substTok, hfind]
    by_contra hnz
    have hoc := (countOcc_ne_zero_iff u f2 hukey.2.1).mp hnz
    have : u = f2 := occurs_eq_of_length_le u f2 hoc
      (by rw [hv2.1, hukey.1.1])
    apply hnk2
    rw [← this]
    exact (mem_umKeys um u).mpr ⟨f, humem⟩
  | none =>
    simp only [substTok, hfind]
    by_contra hnz
    have : seg = u := hseg seg hm (u, f) humem hnz
    rw [this, hu] at hfind
    exact Option.noConfusion hfind

/-- C3 counterexample: `uuidB` is a uuid-shaped value stored only under
the foreign `ref` key, never under a `uuid` key.  The claim says it is
also replaced by a fresh uuid, but after `copy()` it still occurs
verbatim, while the uuid stored under the `uuid` key was rewritten. -/
theorem claim_C3_counterexample :
    isUuidV4Chars uuidB.toList = true
    ∧ countOcc uuidB.toList (modelCopyData dForeign exGen) = 1
    ∧ countOcc uuidA.toList (modelCopyData dForeign exGen) = 0 := by
  decide

/-- C3 as amended: `copy()` rewrites exactly the uuids that appear as
the value of some key literally named `uuid` (the keys of the rewrite
map), wherever they occur; a uuid-shaped string that is not such a key
keeps precisely its original occurrences. -/
theorem claim_C3_foreign_uuid_not_rewritten (d : Json) (gen : Nat → List Char)
    (v : List Char)
    (hshape : ∀ n : Nat, isUuidV4Chars (gen n) = true)
    (hfresh : ∀ n : Nat, n < (uuidMapOfChars gen (stringify d)).length →
      countOcc (gen n) (stringify d) = 0)
    (hseg : ∀ seg ∈ splitQuotes (stringify d),
      ∀ pr ∈ uuidMapOfChars gen (stringify d),
        countOcc pr.1 seg ≠ 0 → seg = pr.1)
    (hv : isUuidV4Chars v = true)
    (hvnk : v ∉ umKeys (uuidMapOfChars gen (stringify d)))
    (hvg : ∀ n : Nat, n < (uuidMapOfChars gen (stringify d)).length →
      gen n ≠ v) :
    countOcc v (modelCopyData d gen) = countOcc v (stringify d) := by
  have hgen : ∀ m : Nat, gen m ≠ [] := fun m => (uuid_shape _ (hshape m)).2.1
  obtain ⟨hv36, hvne, hvdq⟩ := uuid_shape v hv
  set um := uuidMapOfChars gen (stringify d) with hum
  have hchar := copyChars_segments d gen hshape hfresh hseg
  rw [hchar]
  rw [countOcc_joinQuotes v hvne hvdq]
  conv_rhs => rw [← joinQuotes_splitQuotes (stringify d)]
  rw [countOcc_joinQuotes v hvne hvdq]
  rw [List.map_map]
  congr 1
  refine List.map_congr_left ?_
  intro seg hm
  show countOcc v (substTok um seg) = countOcc v seg
  cases hfind : assocFind um seg with
  | none => simp [substTok, hfind]
  | some f2 =>
    have hmem2 : (seg, f2) ∈ um := assocFind_some_mem um seg f2 hfind
    have hk2 := uuidMap_key_shape gen (stringify d) hshape (seg, f2) hmem2
    obtain ⟨_, m, hlt, hval⟩ := uuidMap_mem gen (stringify d) hgen
      (seg, f2) hmem2
    simp only [substTok, hfind]
    have hz1 : countOcc v f2 = 0 := by
      by_contra hnz
      have hoc := (countOcc_ne_zero_iff v f2 hvne).mp hnz
      have hvf : v = f2 := occurs_eq_of_length_le v f2 hoc
        (by
          have := uuidMap_value_shape gen (stringify d) hshape (seg, f2) hmem2
          rw [this.1, hv36])
      exact hvg m hlt (by rw [← hval, ← hvf])
    have hz2 : countOcc v seg = 0 := by
      by_contra hnz
      have hoc := (countOcc_ne_zero_iff v seg hvne).mp hnz
      have hvs : v = seg := occurs_eq_of_length_le v seg hoc
        (by rw [hk2.1.1, hv36])
      apply hvnk
      rw [hvs]
      exact (mem_umKeys um seg).mpr ⟨f2, hmem2⟩
    rw [hz1, hz2]

set_option maxRecDepth 100000 in
/-- Witness for C2 at a concrete input: two sibling sub-bags share
`uuidB` (one as its own uuid, one as an opaque reference); after the
rewrite both carry the same fresh `genB`, and `uuidB` is gone. -/
theorem claim_C2_witness :
    genB.toList ≠ uuidB.toList
    ∧ substTok (uuidMapOfChars exGen (stringify dShared)) uuidB.toList
        = genB.toList
    ∧ modelCopyData dShared exGen
        = joinQuotes ((splitQuotes (stringify dShared)).map
            (substTok (uuidMapOfChars exGen (stringify dShared))))
    ∧ countOcc uuidB.toList (modelCopyData dShared exGen) = 0 :=
  claim_C2_copy_shared_uuid dShared exGen uuidB.toList genB.toList
    (fun n => by
      cases n with
      | zero => decide
      | succ k => simp [exGen]; decide)
    (by decide) (by decide) (by decide) (by decide)

set_option maxRecDepth 100000 in
/-- Witness for C3's amended statement at a concrete input: the
foreign-reference uuid keeps its single occurrence through `copy()`. -/
theorem claim_C3_witness :
    countOcc uuidB.toList (modelCopyData dForeign exGen)
      = countOcc uuidB.toList (stringify dForeign) :=
  claim_C3_foreign_uuid_not_rewritten dForeign exGen uuidB.toList
    (fun n => by
      cases n with
      | zero => decide
      | succ k => simp [exGen]; decide)
    (by decide) (by decide) (by decide) (by decide) (by decide)

end Mozy
